import Mathlib

/-!
# Verification of the FM-index core (`src/data_structures/fmindex.rs`)

This file gives a shallow embedding of the FM-index / FMD-index core:

* `FMIndex.backward_search` — exact backward search on a BWT.
* `BiInterval` — bidirectional suffix-array interval (`lower`, `lower_rev`,
  `size`, `match_size`) with its `swapped` (mirror) view.
* `FMDIndex.backward_ext` / `FMDIndex.forward_ext` — single-symbol extension.
* `FMDIndex.smems` — supermaximal-exact-match enumeration.

Symbols are byte values (`Nat`): `$` = 36, `A` = 65, `C` = 67, `G` = 71,
`N` = 78, `T` = 84.

The collaborators that the core consumes (suffix array, Burrows–Wheeler
transform, rank/occurrence table, less/boundary table, alphabet validation and
the reverse-complement map) are not part of the source under verification;
they are modelled from the specification, as noted on each definition.
-/

/-! ## Definitions -/

/-- Lexicographic `≤` on symbol lists (total order used by the suffix array). -/
def listLe : List Nat → List Nat → Bool
  | [], _ => true
  | _ :: _, [] => false
  | a :: as, b :: bs => decide (a < b) || (decide (a = b) && listLe as bs)

/-- Lexicographic `<` on symbol lists, derived from `listLe` by totality. -/
def listLt (x y : List Nat) : Bool := !(listLe y x)

/-- Modelled from the spec: the suffix array is "an ordering of a text's
starting offsets, sorted by the suffixes they begin" (suffix-array
construction itself is an external collaborator). -/
def suffixArray (t : List Nat) : List Nat :=
  List.insertionSort (fun i j => listLe (t.drop i) (t.drop j) = true)
    (List.range t.length)

/-- Modelled from the spec: the Burrows–Wheeler transform pairs each
suffix-array entry `s` with the symbol preceding offset `s` in the text,
cyclically (the symbol at offset `(s + n - 1) % n`). BWT construction is an
external collaborator. -/
def bwtOf (t : List Nat) : List Nat :=
  (suffixArray t).map (fun s => t.getD ((s + t.length - 1) % t.length) 0)

/-- The Single-Direction Index.  It owns the transformed text; the rank and
boundary tables are modelled as functions of it (see `FMIndex.occ`,
`FMIndex.less`). -/
structure FMIndex where
  bwt : List Nat
deriving DecidableEq, Repr

/-- Modelled from the spec: `rank(position, symbol)` is the "number of
occurrences of `symbol` in the transformed text at or before `position`"
(the `Occ` table is an external collaborator). -/
def FMIndex.occ (fm : FMIndex) (r : Nat) (a : Nat) : Nat :=
  (fm.bwt.take (r + 1)).count a

/-- Modelled from the spec: the boundary (less-than) table gives the "count of
symbols lexicographically smaller than a given symbol across the whole text"
(the `Less` table is an external collaborator). -/
def FMIndex.less (fm : FMIndex) (a : Nat) : Nat :=
  fm.bwt.countP (fun c => decide (c < a))

/-- One step of backward search, translated from the loop body of
`FMIndex::backward_search`:
`l = less + if l > 0 { occ(l - 1, a) } else { 0 }; r = less + occ(r, a) - 1`. -/
def FMIndex.backwardSearchStep (fm : FMIndex) (p : Nat × Nat) (a : Nat) : Nat × Nat :=
  let less := fm.less a
  (less + (if 0 < p.1 then fm.occ (p.1 - 1) a else 0), less + fm.occ p.2 a - 1)

/-- `FMIndex::backward_search`: consume the pattern from its last symbol to its
first, starting from the interval `(0, bwt.len() - 1)`. -/
def FMIndex.backward_search (fm : FMIndex) (pattern : List Nat) : Nat × Nat :=
  pattern.reverse.foldl fm.backwardSearchStep (0, fm.bwt.length - 1)

/-- `BiInterval`: a pair of suffix-array start offsets (forward strand and
reverse-complement strand), a shared occurrence count and the matched
length. -/
structure BiInterval where
  lower : Nat
  lower_rev : Nat
  size : Nat
  match_size : Nat
deriving DecidableEq, Repr

/-- `BiInterval::occ`: the forward-strand occurrence positions
`&pos[lower..lower + size]` of the paired suffix array. -/
def BiInterval.occ (i : BiInterval) (pos : List Nat) : List Nat :=
  (pos.drop i.lower).take i.size

/-- `BiInterval::occ_revcomp`: the reverse-complement-strand occurrence
positions `&pos[lower_rev..lower_rev + size]`. -/
def BiInterval.occ_revcomp (i : BiInterval) (pos : List Nat) : List Nat :=
  (pos.drop i.lower_rev).take i.size

/-- `BiInterval::swapped`: the mirrored view exchanging `lower` and
`lower_rev` while keeping `size` and `match_size`. -/
def BiInterval.swapped (i : BiInterval) : BiInterval :=
  { lower := i.lower_rev
    lower_rev := i.lower
    size := i.size
    match_size := i.match_size }

/-- Modelled from the spec: the reverse-complement symbol map
(`dna::RevComp`, an external collaborator): A/T and C/G are mutual
complements; sentinel and wildcard map to themselves. -/
def comp (a : Nat) : Nat :=
  if a = 65 then 84
  else if a = 84 then 65
  else if a = 67 then 71
  else if a = 71 then 67
  else a

/-- The alphabet `b"$ACGTN"` used by `FMDIndex::new` and by the first pass of
`backward_ext`, in the source's byte order. -/
def fmdAlphabet : List Nat := [36, 65, 67, 71, 84, 78]

/-- The symbol sequence `b"TGCAN"` of the second (`lower_rev`) pass of
`backward_ext`. -/
def revPassOrder : List Nat := [84, 71, 67, 65, 78]

/-- The DNA symbols proper (`A`, `C`, `G`, `T`, `N`), i.e. the alphabet
without the sentinel. -/
def dnaSyms : List Nat := [65, 67, 71, 84, 78]

/-- The Bidirectional Index: wraps a Single-Direction Index over the
concatenated text‖sentinel‖reverse-complement‖sentinel transform.  The
per-call scratch buffer of the source is modelled locally inside
`backward_ext` (it is fully overwritten on every call for every symbol that
is ever read back). -/
structure FMDIndex where
  fmindex : FMIndex
deriving DecidableEq, Repr

/-- `FMDIndex::new`: construction validates that the transformed text uses
only the alphabet `$ACGTN` (the `assert!` is modelled as returning `none`;
the alphabet membership test `Alphabet::is_word` is an external collaborator,
modelled from the spec as symbol-set membership). -/
def FMDIndex.new (bwt : List Nat) : Option FMDIndex :=
  if bwt.all (fun c => c ∈ fmdAlphabet) then some ⟨⟨bwt⟩⟩ else none

/-- Buffer update: the scratch buffer is a map from symbol to candidate
interval; writing one cell leaves the others unchanged. -/
def updateBuf (buf : Nat → BiInterval) (b : Nat) (v : BiInterval) : Nat → BiInterval :=
  fun x => if x = b then v else buf x

/-- `FMDIndex::backward_ext`: first pass fills `lower` and `size` of the
candidate for every symbol of `b"$ACGTN"` from two rank queries; second pass
fills `lower_rev` by a running sum in the order `$`, then `b"TGCAN"`; the
returned interval is the candidate for `a` with `match_size` incremented.
The buffer cells start from the all-zero intervals that `FMDIndex::new`
installs. -/
def FMDIndex.backward_ext (idx : FMDIndex) (interval : BiInterval) (a : Nat) : BiInterval :=
  let buf1 := fmdAlphabet.foldl
    (fun buf b =>
      let o := idx.fmindex.occ (interval.lower - 1) b
      updateBuf buf b
        { buf b with
          lower := idx.fmindex.less b + o
          size := idx.fmindex.occ (interval.lower + interval.size - 1) b - o })
    (fun _ => ⟨0, 0, 0, 0⟩)
  let buf2 := updateBuf buf1 36 { buf1 36 with lower_rev := interval.lower_rev }
  let buf3 := (revPassOrder.foldl
    (fun (st : (Nat → BiInterval) × Nat) b =>
      let buf := st.1
      let last := st.2
      (updateBuf buf b { buf b with lower_rev := (buf last).lower_rev + (buf last).size }, b))
    (buf2, 36)).1
  let ret := buf3 a
  { ret with match_size := interval.match_size + 1 }

/-- `FMDIndex::forward_ext`: complement the symbol, backward-extend the
mirrored view, mirror the result back. -/
def FMDIndex.forward_ext (idx : FMDIndex) (interval : BiInterval) (a : Nat) : BiInterval :=
  (idx.backward_ext interval.swapped (comp a)).swapped

/-- `FMDIndex::init_interval`: the single-symbol seed interval at pivot `i`:
`lower = less(a)`, `lower_rev = less(comp(a))`, `size = less(a + 1) - less(a)`,
`match_size = 1`. -/
def FMDIndex.init_interval (idx : FMDIndex) (pattern : List Nat) (i : Nat) : BiInterval :=
  let a := pattern.getD i 0
  let ca := comp a
  let lower := idx.fmindex.less a
  { lower := lower
    lower_rev := idx.fmindex.less ca
    size := idx.fmindex.less (a + 1) - lower
    match_size := 1 }

/-- The forward sweep of `FMDIndex::smems` over `pattern[i+1..]`: whenever an
extension changes the size, record the pre-extension interval; stop as soon
as an extension's size reaches zero; finally record the interval reached. -/
def FMDIndex.fwdLoop (idx : FMDIndex) :
    List Nat → BiInterval → List BiInterval → List BiInterval
  | [], interval, curr => curr ++ [interval]
  | a :: rest, interval, curr =>
    let ext := idx.forward_ext interval a
    let curr2 := if interval.size ≠ ext.size then curr ++ [interval] else curr
    if ext.size = 0 then curr2 ++ [interval]
    else idx.fwdLoop rest ext curr2

/-- One candidate of the backward sweep's inner loop, threading
`(curr, s, j, matches)` exactly as the source mutates them. -/
def FMDIndex.bwdInnerStep (idx : FMDIndex) (a : Nat) (k : Int)
    (st : List BiInterval × Int × Int × List BiInterval) (interval : BiInterval) :
    List BiInterval × Int × Int × List BiInterval :=
  let curr := st.1
  let s := st.2.1
  let j := st.2.2.1
  let ms := st.2.2.2
  let ext := idx.backward_ext interval a
  let jm :=
    if (ext.size = 0 ∨ k = -1) ∧ curr = [] ∧ k < j then (k, ms ++ [interval])
    else (j, ms)
  if ext.size ≠ 0 ∧ (ext.size : Int) ≠ s then (curr ++ [ext], (ext.size : Int), jm.1, jm.2)
  else (curr, s, jm.1, jm.2)

/-- The backward sweep of `FMDIndex::smems`, over positions
`k = i - 1, …, 0, -1` (the `-1` step uses the sentinel).  Candidates are
processed in reverse (largest size first); the sweep stops once no candidate
survives. -/
def FMDIndex.bwdLoop (idx : FMDIndex) (pattern : List Nat) :
    List Int → List BiInterval → Int → List BiInterval → List BiInterval
  | [], _, _, ms => ms
  | k :: ks, prev, j, ms =>
    let a := if k = -1 then 36 else pattern.getD k.toNat 0
    let st := prev.reverse.foldl (idx.bwdInnerStep a k) ([], (-1 : Int), j, ms)
    if st.1 = [] then st.2.2.2
    else idx.bwdLoop pattern ks st.1 st.2.2.1 st.2.2.2

/-- `FMDIndex::smems`: find the supermaximal exact matches of `pattern`
overlapping position `i`. -/
def FMDIndex.smems (idx : FMDIndex) (pattern : List Nat) (i : Nat) : List BiInterval :=
  let interval := idx.init_interval pattern i
  let prev := idx.fwdLoop (pattern.drop (i + 1)) interval []
  let ks := ((List.range (i + 1)).map (fun x => Int.ofNat x - 1)).reverse
  idx.bwdLoop pattern ks prev (pattern.length : Int) []

/-- The rank of offset `s`: the number of text offsets whose suffix is
lexicographically smaller than the suffix at `s`. -/
def rankOf (t : List Nat) (s : Nat) : Nat :=
  (List.range t.length).countP (fun u => listLt (t.drop u) (t.drop s))

/-- The inclusive suffix-array slice `sa[l..=r]` denoted by a backward-search
result `(l, r)`. -/
def saSlice (t : List Nat) (lr : Nat × Nat) : List Nat :=
  ((suffixArray t).take (lr.2 + 1)).drop lr.1

/-- Number of text positions holding a symbol smaller than `a`. -/
def lessT (t : List Nat) (a : Nat) : Nat :=
  (List.range t.length).countP (fun s => decide (t.getD s 0 < a))

/-- Number of text positions holding exactly the symbol `a`. -/
def countT (t : List Nat) (a : Nat) : Nat :=
  (List.range t.length).countP (fun s => decide (t.getD s 0 = a))

/-- Invariant of backward search: after consuming the pattern suffix `p`,
the interval `(l, r)` is in range and contains exactly the ranks of the
suffixes that `p` prefixes. -/
def SearchInv (t : List Nat) (p : List Nat) (lr : Nat × Nat) : Prop :=
  lr.1 ≤ t.length ∧ lr.2 < t.length ∧
    ∀ s, s < t.length →
      (p.isPrefixOf (t.drop s) = true ↔ (lr.1 ≤ rankOf t s ∧ rankOf t s ≤ lr.2))

/-- Candidate size stated from the spec:
`rank(lower + size - 1, b) - rank(lower - 1, b)`. -/
def extSize (idx : FMDIndex) (i : BiInterval) (b : Nat) : Nat :=
  idx.fmindex.occ (i.lower + i.size - 1) b - idx.fmindex.occ (i.lower - 1) b

/-- Candidate forward start stated from the spec:
`boundary(b) + rank(lower - 1, b)`. -/
def extLower (idx : FMDIndex) (i : BiInterval) (b : Nat) : Nat :=
  idx.fmindex.less b + idx.fmindex.occ (i.lower - 1) b

/-- Candidate reverse start stated from the spec: the running sum over the
complement-order sequence (sentinel first, then `T`, `G`, `C`, `A`, `N`) of
the sizes of the candidates preceding `b`, added to the input interval's
reverse start. -/
def extLowerRev (idx : FMDIndex) (i : BiInterval) (b : Nat) : Nat :=
  i.lower_rev + (((36 :: revPassOrder).takeWhile (fun x => x ≠ b)).map (extSize idx i)).sum

/-- Checked `x - 1` on `usize`: underflows when `x = 0`. -/
def natPredChecked (x : Nat) : Option Nat :=
  if x = 0 then none else some (x - 1)

/-- Checked `x - y` on `usize`: underflows when `y > x`. -/
def natSubChecked (x y : Nat) : Option Nat :=
  if y ≤ x then some (x - y) else none

/-- Checked rank query: the occurrence table is only defined for positions
inside the transformed text. -/
def FMIndex.occChecked (fm : FMIndex) (r a : Nat) : Option Nat :=
  if r < fm.bwt.length then some (fm.occ r a) else none

/-- Checked backward-search step: `l - 1` is guarded by the source's
`if l > 0`, so only the rank positions and the `- 1` on the upper bound can
fail. -/
def FMIndex.backwardSearchStepChecked (fm : FMIndex) (p : Nat × Nat) (a : Nat) :
    Option (Nat × Nat) :=
  match (if 0 < p.1 then fm.occChecked (p.1 - 1) a else some 0), fm.occChecked p.2 a with
  | some o1, some o2 =>
    if fm.less a + o2 = 0 then none
    else some (fm.less a + o1, fm.less a + o2 - 1)
  | _, _ => none

/-- Checked `backward_search` (also guards the initial `bwt.len() - 1`). -/
def FMIndex.backward_search_checked (fm : FMIndex) (pattern : List Nat) :
    Option (Nat × Nat) :=
  if fm.bwt.length = 0 then none
  else pattern.reverse.foldl
    (fun acc a => acc.bind (fun p => fm.backwardSearchStepChecked p a))
    (some (0, fm.bwt.length - 1))

/-- Checked `backward_ext`: every rank query of the first pass is guarded.
`interval.lower - 1`, `interval.lower + interval.size - 1`, the table
positions, and the size subtraction are all `usize` operations that can
fail. -/
def FMDIndex.backward_ext_checked (idx : FMDIndex) (interval : BiInterval) (a : Nat) :
    Option BiInterval := do
  let buf1 ← fmdAlphabet.foldlM
    (fun (buf : Nat → BiInterval) b => do
      let i1 ← natPredChecked interval.lower
      let o ← idx.fmindex.occChecked i1 b
      let i2 ← natPredChecked (interval.lower + interval.size)
      let o2 ← idx.fmindex.occChecked i2 b
      let sz ← natSubChecked o2 o
      pure (updateBuf buf b { buf b with lower := idx.fmindex.less b + o, size := sz }))
    (fun _ => ⟨0, 0, 0, 0⟩)
  let buf2 := updateBuf buf1 36 { buf1 36 with lower_rev := interval.lower_rev }
  let buf3 := (revPassOrder.foldl
    (fun (st : (Nat → BiInterval) × Nat) b =>
      (updateBuf st.1 b
        { st.1 b with lower_rev := (st.1 st.2).lower_rev + (st.1 st.2).size }, b))
    (buf2, 36)).1
  pure { buf3 a with match_size := interval.match_size + 1 }

/-- Scenario A text `GCCTTAACATTATTACGCCTA` (sentinel appended at use sites). -/
def textA : List Nat := [71, 67, 67, 84, 84, 65, 65, 67, 65, 84, 84, 65, 84, 84, 65, 67, 71, 67, 67, 84, 65]

/-- The bidirectional scenario text `GCCTTAACAT$ATGTTAAGGC$`
(`GCCTTAACAT`, sentinel, its reverse complement, sentinel). -/
def textC : List Nat := [71, 67, 67, 84, 84, 65, 65, 67, 65, 84, 36, 65, 84, 71, 84, 84, 65, 65, 71, 71, 67, 36]

/-- Checked `forward_ext`: the mirrored checked extension with the
complemented symbol, mirrored back. -/
def FMDIndex.forward_ext_checked (idx : FMDIndex) (interval : BiInterval) (a : Nat) :
    Option BiInterval :=
  (idx.backward_ext_checked interval.swapped (comp a)).map BiInterval.swapped

/-- Checked forward sweep of `smems`: identical control flow to `fwdLoop`,
with each extension's `usize` hazards threaded through `Option`. -/
def FMDIndex.fwdLoopChecked (idx : FMDIndex) :
    List Nat → BiInterval → List BiInterval → Option (List BiInterval)
  | [], interval, curr => some (curr ++ [interval])
  | a :: rest, interval, curr =>
    (idx.forward_ext_checked interval a).bind (fun ext =>
      let curr2 := if interval.size ≠ ext.size then curr ++ [interval] else curr
      if ext.size = 0 then some (curr2 ++ [interval])
      else idx.fwdLoopChecked rest ext curr2)

/-- Checked inner step of the backward sweep: identical threading of
`(curr, s, j, matched)` to `bwdInnerStep`, over the checked extension. -/
def FMDIndex.bwdInnerStepChecked (idx : FMDIndex) (a : Nat) (k : Int)
    (st : List BiInterval × Int × Int × List BiInterval) (interval : BiInterval) :
    Option (List BiInterval × Int × Int × List BiInterval) :=
  let curr := st.1
  let s := st.2.1
  let j := st.2.2.1
  let ms := st.2.2.2
  (idx.backward_ext_checked interval a).map (fun ext =>
    let jm :=
      if (ext.size = 0 ∨ k = -1) ∧ curr = [] ∧ k < j then (k, ms ++ [interval])
      else (j, ms)
    if ext.size ≠ 0 ∧ (ext.size : Int) ≠ s then (curr ++ [ext], (ext.size : Int), jm.1, jm.2)
    else (curr, s, jm.1, jm.2))

/-- Checked backward sweep of `smems`. -/
def FMDIndex.bwdLoopChecked (idx : FMDIndex) (pattern : List Nat) :
    List Int → List BiInterval → Int → List BiInterval → Option (List BiInterval)
  | [], _, _, ms => some ms
  | k :: ks, prev, j, ms =>
    let a := if k = -1 then 36 else pattern.getD k.toNat 0
    (prev.reverse.foldlM (idx.bwdInnerStepChecked a k) ([], (-1 : Int), j, ms)).bind
      (fun st =>
        if st.1 = [] then some st.2.2.2
        else idx.bwdLoopChecked pattern ks st.1 st.2.2.1 st.2.2.2)

/-- Checked `smems`: `smems` with every extension's `usize` hazards modelled;
`none` where the source would abort. -/
def FMDIndex.smems_checked (idx : FMDIndex) (pattern : List Nat) (i : Nat) :
    Option (List BiInterval) :=
  let interval := idx.init_interval pattern i
  let ks := ((List.range (i + 1)).map (fun x => Int.ofNat x - 1)).reverse
  (idx.fwdLoopChecked (pattern.drop (i + 1)) interval []).bind
    (fun prev => idx.bwdLoopChecked pattern ks prev (pattern.length : Int) [])

set_option maxRecDepth 10000

/-! ## Theorems -/

theorem listLe_refl (x : List Nat) : listLe x x = true := by
  induction x with
  | nil => rfl
  | cons a as ih => simp [listLe, ih]

theorem listLe_trans : ∀ {x y z : List Nat},
    listLe x y = true → listLe y z = true → listLe x z = true
  | [], _, _, _, _ => rfl
  | _ :: _, [], _, h, _ => by simp [listLe] at h
  | _ :: _, _ :: _, [], _, h => by simp [listLe] at h
  | a :: as, b :: bs, c :: cs, h1, h2 => by
    simp only [listLe, Bool.or_eq_true, Bool.and_eq_true, decide_eq_true_eq] at h1 h2 ⊢
    rcases h1 with h1 | ⟨h1e, h1r⟩ <;> rcases h2 with h2 | ⟨h2e, h2r⟩
    · exact Or.inl (Nat.lt_trans h1 h2)
    · exact Or.inl (h2e ▸ h1)
    · exact Or.inl (h1e ▸ h2)
    · exact Or.inr ⟨h1e.trans h2e, listLe_trans h1r h2r⟩

theorem listLe_total : ∀ x y : List Nat, listLe x y = true ∨ listLe y x = true
  | [], _ => Or.inl rfl
  | _ :: _, [] => Or.inr rfl
  | a :: as, b :: bs => by
    simp only [listLe, Bool.or_eq_true, Bool.and_eq_true, decide_eq_true_eq]
    rcases Nat.lt_trichotomy a b with h | h | h
    · exact Or.inl (Or.inl h)
    · rcases listLe_total as bs with hr | hr
      · exact Or.inl (Or.inr ⟨h, hr⟩)
      · exact Or.inr (Or.inr ⟨h.symm, hr⟩)
    · exact Or.inr (Or.inl h)

theorem listLe_antisymm : ∀ {x y : List Nat},
    listLe x y = true → listLe y x = true → x = y
  | [], [], _, _ => rfl
  | [], _ :: _, _, h => by simp [listLe] at h
  | _ :: _, [], h, _ => by simp [listLe] at h
  | a :: as, b :: bs, h1, h2 => by
    simp only [listLe, Bool.or_eq_true, Bool.and_eq_true, decide_eq_true_eq] at h1 h2
    rcases h1 with h1 | ⟨h1e, h1r⟩ <;> rcases h2 with h2 | ⟨h2e, h2r⟩
    · omega
    · omega
    · omega
    · exact h1e ▸ congrArg (a :: ·) (listLe_antisymm h1r h2r)

theorem listLt_iff_not_le {x y : List Nat} : listLt x y = true ↔ ¬ listLe y x = true := by
  simp [listLt]

theorem listLt_irrefl (x : List Nat) : ¬ listLt x x = true := by
  rw [listLt_iff_not_le]
  exact fun h => h (listLe_refl x)

theorem listLe_of_lt {x y : List Nat} (h : listLt x y = true) : listLe x y = true := by
  rw [listLt_iff_not_le] at h
  rcases listLe_total x y with h' | h'
  · exact h'
  · exact absurd h' h

theorem listLt_of_le_of_ne {x y : List Nat} (h : listLe x y = true) (hne : x ≠ y) :
    listLt x y = true := by
  rw [listLt_iff_not_le]
  intro h'
  exact hne (listLe_antisymm h h')

theorem listLt_of_lt_of_le {x y z : List Nat} (h1 : listLt x y = true)
    (h2 : listLe y z = true) : listLt x z = true := by
  rw [listLt_iff_not_le] at h1 ⊢
  intro h'
  exact h1 (listLe_trans h2 h')

theorem listLt_of_le_of_lt {x y z : List Nat} (h1 : listLe x y = true)
    (h2 : listLt y z = true) : listLt x z = true := by
  rw [listLt_iff_not_le] at h2 ⊢
  intro h'
  exact h2 (listLe_trans h' h1)

theorem listLt_trans {x y z : List Nat} (h1 : listLt x y = true)
    (h2 : listLt y z = true) : listLt x z = true :=
  listLt_of_lt_of_le h1 (listLe_of_lt h2)

theorem listLt_asymm {x y : List Nat} (h : listLt x y = true) : ¬ listLt y x = true :=
  fun h' => listLt_irrefl x (listLt_trans h h')

theorem listLt_cons_head {a b : Nat} (x y : List Nat) (h : a < b) :
    listLt (a :: x) (b :: y) = true := by
  rw [listLt_iff_not_le]
  simp only [listLe, Bool.or_eq_true, Bool.and_eq_true, decide_eq_true_eq]
  omega

theorem listLt_cons_same {a : Nat} (x y : List Nat) :
    listLt (a :: x) (a :: y) = listLt x y := by
  simp [listLt, listLe, Nat.lt_irrefl]

theorem head_le_of_listLt {a b : Nat} {x y : List Nat}
    (h : listLt (a :: x) (b :: y) = true) : a ≤ b := by
  by_contra hab
  exact listLt_asymm (listLt_cons_head y x (by omega)) h

theorem countP_split (p c : Nat → Bool) (l : List Nat) :
    l.countP p = l.countP (fun x => p x && c x) + l.countP (fun x => p x && !(c x)) := by
  induction l with
  | nil => rfl
  | cons a t ih =>
    by_cases hp : p a <;> by_cases hc : c a <;>
      simp [List.countP_cons, hp, hc, ih] <;> omega

theorem countP_strict_mono {p q : Nat → Bool} {l : List Nat} {x : Nat}
    (hsub : ∀ u ∈ l, p u = true → q u = true) (hx : x ∈ l)
    (hpx : ¬ p x = true) (hqx : q x = true) : l.countP p < l.countP q := by
  have hperm := List.perm_cons_erase hx
  rw [hperm.countP_eq p, hperm.countP_eq q]
  have hmono : (l.erase x).countP p ≤ (l.erase x).countP q :=
    List.countP_mono_left (fun u hu => hsub u (List.mem_of_mem_erase hu))
  simp only [List.countP_cons, hpx, hqx, Bool.false_eq_true, if_false, if_true]
  omega

theorem countP_lt_length {p : Nat → Bool} {l : List Nat} {x : Nat}
    (hx : x ∈ l) (hpx : ¬ p x = true) : l.countP p < l.length := by
  have hperm := List.perm_cons_erase hx
  rw [hperm.countP_eq p, hperm.length_eq]
  simp only [List.countP_cons, hpx, List.length_cons, Bool.false_eq_true, if_false]
  have := List.countP_le_length (l := l.erase x) (p := p)
  omega

/-- Counting over a list equals counting over its index range. -/
theorem countP_eq_countP_range (p : Nat → Bool) :
    ∀ l : List Nat, l.countP p = (List.range l.length).countP (fun i => p (l.getD i 0))
  | [] => rfl
  | a :: t => by
    have hrange : List.range (a :: t).length = 0 :: (List.range t.length).map Nat.succ :=
      List.range_succ_eq_map t.length
    rw [hrange]
    simp only [List.countP_cons, List.countP_map]
    have : ((List.range t.length).countP ((fun i => p ((a :: t).getD i 0)) ∘ Nat.succ))
        = (List.range t.length).countP (fun i => p (t.getD i 0)) := by
      apply List.countP_congr
      intro i _
      rfl
    rw [this, ← countP_eq_countP_range p t]
    simp [List.getD]

theorem sa_perm (t : List Nat) : List.Perm (suffixArray t) (List.range t.length) :=
  List.perm_insertionSort _ _

theorem sa_length (t : List Nat) : (suffixArray t).length = t.length := by
  rw [(sa_perm t).length_eq, List.length_range]

theorem sa_nodup (t : List Nat) : (suffixArray t).Nodup :=
  (sa_perm t).nodup_iff.mpr (List.nodup_range t.length)

theorem sa_mem {t : List Nat} {s : Nat} : s ∈ suffixArray t ↔ s < t.length := by
  rw [(sa_perm t).mem_iff, List.mem_range]

theorem sa_sorted (t : List Nat) :
    List.Sorted (fun i j => listLe (t.drop i) (t.drop j) = true) (suffixArray t) := by
  haveI : IsTotal Nat (fun i j => listLe (t.drop i) (t.drop j) = true) :=
    ⟨fun a b => listLe_total (t.drop a) (t.drop b)⟩
  haveI : IsTrans Nat (fun i j => listLe (t.drop i) (t.drop j) = true) :=
    ⟨fun _ _ _ h1 h2 => listLe_trans h1 h2⟩
  exact List.sorted_insertionSort _ _

/-- Distinct in-range offsets have distinct suffixes (their lengths differ). -/
theorem drop_ne_of_ne {t : List Nat} {x y : Nat} (hx : x < t.length) (hy : y < t.length)
    (hne : x ≠ y) : t.drop x ≠ t.drop y := by
  intro h
  have := congrArg List.length h
  simp only [List.length_drop] at this
  omega

theorem sa_elem_lt {t : List Nat} {i j : Nat} (hij : i < j)
    (hj : j < (suffixArray t).length) :
    listLt (t.drop ((suffixArray t).getD i 0)) (t.drop ((suffixArray t).getD j 0)) = true := by
  have hi : i < (suffixArray t).length := Nat.lt_trans hij hj
  have hle : listLe (t.drop ((suffixArray t).getD i 0)) (t.drop ((suffixArray t).getD j 0))
      = true := by
    have := List.pairwise_iff_getElem.mp (sa_sorted t) i j hi hj hij
    rwa [List.getD_eq_getElem?_getD, List.getD_eq_getElem?_getD,
      List.getElem?_eq_getElem hi, List.getElem?_eq_getElem hj]
  have hmi : (suffixArray t).getD i 0 < t.length := by
    rw [← sa_mem]
    rw [List.getD_eq_getElem?_getD, List.getElem?_eq_getElem hi]
    exact List.getElem_mem hi
  have hmj : (suffixArray t).getD j 0 < t.length := by
    rw [← sa_mem]
    rw [List.getD_eq_getElem?_getD, List.getElem?_eq_getElem hj]
    exact List.getElem_mem hj
  have hnd : (suffixArray t).getD i 0 ≠ (suffixArray t).getD j 0 := by
    intro h
    have hinj := List.nodup_iff_injective_get.mp (sa_nodup t)
    rw [List.getD_eq_getElem?_getD, List.getD_eq_getElem?_getD,
      List.getElem?_eq_getElem hi, List.getElem?_eq_getElem hj] at h
    have heq : (suffixArray t).get ⟨i, hi⟩ = (suffixArray t).get ⟨j, hj⟩ := by
      simpa using h
    have hfin := hinj heq
    simp only [Fin.mk.injEq] at hfin
    omega
  exact listLt_of_le_of_ne hle (drop_ne_of_ne hmi hmj hnd)

theorem getD_eq_getElem_of_lt (l : List Nat) {k : Nat} (h : k < l.length) :
    l.getD k 0 = l[k] := by
  rw [List.getD_eq_getElem?_getD, List.getElem?_eq_getElem h]
  rfl

theorem listLe_of_not_lt {x y : List Nat} (h : ¬ listLt x y = true) : listLe y x = true := by
  cases hb : listLe y x with
  | true => rfl
  | false => exact absurd (by simp [listLt, hb]) h

/-- The element of the suffix array at position `k` has rank `k`. -/
theorem rank_sa (t : List Nat) (k : Nat) (hk : k < (suffixArray t).length) :
    rankOf t ((suffixArray t).getD k 0) = k := by
  set p : Nat → Bool := fun u => listLt (t.drop u) (t.drop ((suffixArray t).getD k 0)) with hp
  have hlen : (suffixArray t).length = t.length := sa_length t
  have hperm : List.Perm (List.range t.length) (suffixArray t) := (sa_perm t).symm
  have h1 : rankOf t ((suffixArray t).getD k 0) = (suffixArray t).countP p :=
    hperm.countP_eq p
  rw [h1, ← List.take_append_drop k (suffixArray t), List.countP_append]
  have htk : ((suffixArray t).take k).countP p = k := by
    have hall : ∀ x ∈ (suffixArray t).take k, p x = true := by
      intro x hx
      rcases List.mem_iff_getElem.mp hx with ⟨j, hj, hxe⟩
      have hjk : j < k := by
        have := hj
        rw [List.length_take] at this
        omega
      have hjs : j < (suffixArray t).length := by omega
      have hxj : x = (suffixArray t).getD j 0 := by
        rw [getD_eq_getElem_of_lt _ hjs, ← hxe]
        simp
      rw [hp, hxj]
      exact sa_elem_lt hjk hk
    have hcl := List.countP_eq_length.mpr hall
    rw [hcl, List.length_take]
    omega
  have hdk : ((suffixArray t).drop k).countP p = 0 := by
    rw [List.countP_eq_zero]
    intro x hx
    rcases List.mem_iff_getElem.mp hx with ⟨j, hj, hxe⟩
    have hkj : k + j < (suffixArray t).length := by
      have := hj
      rw [List.length_drop] at this
      omega
    have hxj : x = (suffixArray t).getD (k + j) 0 := by
      rw [getD_eq_getElem_of_lt _ hkj, ← hxe]
      simp
    rcases Nat.eq_zero_or_pos j with hj0 | hj0
    · subst hj0
      rw [hp, hxj]
      simpa using listLt_irrefl (t.drop ((suffixArray t).getD (k + 0) 0))
    · have hlt := sa_elem_lt (t := t) (i := k) (j := k + j) (by omega) hkj
      rw [hp, hxj]
      simpa using listLt_asymm hlt
  rw [htk, hdk]
  omega

/-- Every in-range offset is found in the suffix array at its rank. -/
theorem sa_getD_rank (t : List Nat) (s : Nat) (hs : s < t.length) :
    rankOf t s < t.length ∧ (suffixArray t).getD (rankOf t s) 0 = s := by
  have hmem : s ∈ suffixArray t := sa_mem.mpr hs
  rcases List.mem_iff_getElem.mp hmem with ⟨k, hk, hke⟩
  have hsD : (suffixArray t).getD k 0 = s := by
    rw [getD_eq_getElem_of_lt _ hk, hke]
  have hr : rankOf t s = k := by
    rw [← hsD]
    exact rank_sa t k hk
  constructor
  · rw [hr, ← sa_length t]
    exact hk
  · rw [hr, hsD]

theorem rank_lt_len {t : List Nat} {s : Nat} (hs : s < t.length) : rankOf t s < t.length := by
  have := countP_lt_length (l := List.range t.length)
    (p := fun u => listLt (t.drop u) (t.drop s)) (x := s)
    (List.mem_range.mpr hs) (by simpa using listLt_irrefl (t.drop s))
  simpa [rankOf] using this

/-- Rank is an order isomorphism on suffix comparison. -/
theorem rank_lt_iff {t : List Nat} {x y : Nat} (hx : x < t.length) (hy : y < t.length) :
    listLt (t.drop x) (t.drop y) = true ↔ rankOf t x < rankOf t y := by
  constructor
  · intro h
    exact countP_strict_mono
      (fun u _ hu => listLt_trans hu h)
      (List.mem_range.mpr hx)
      (by simpa using listLt_irrefl (t.drop x)) h
  · intro h
    by_contra hnlt
    have hle : listLe (t.drop y) (t.drop x) = true := listLe_of_not_lt hnlt
    have : rankOf t y ≤ rankOf t x :=
      List.countP_mono_left (fun u _ hu => listLt_of_lt_of_le hu hle)
    omega

theorem drop_cons_getD {t : List Nat} {s : Nat} (h : s < t.length) :
    t.drop s = t.getD s 0 :: t.drop (s + 1) := by
  rw [getD_eq_getElem_of_lt _ h]
  exact List.drop_eq_getElem_cons h

theorem fc_lt {t : List Nat} {u s : Nat} (hu : u < t.length) (hs : s < t.length)
    (h : t.getD u 0 < t.getD s 0) : listLt (t.drop u) (t.drop s) = true := by
  rw [drop_cons_getD hu, drop_cons_getD hs]
  exact listLt_cons_head _ _ h

theorem fc_le {t : List Nat} {u s : Nat} (hu : u < t.length) (hs : s < t.length)
    (h : listLt (t.drop u) (t.drop s) = true) : t.getD u 0 ≤ t.getD s 0 := by
  rw [drop_cons_getD hu, drop_cons_getD hs] at h
  exact head_le_of_listLt h

theorem fc_eq {t : List Nat} {u s : Nat} (hu : u < t.length) (hs : s < t.length)
    (h : t.getD u 0 = t.getD s 0) :
    listLt (t.drop u) (t.drop s) = listLt (t.drop (u + 1)) (t.drop (s + 1)) := by
  rw [drop_cons_getD hu, drop_cons_getD hs, h]
  exact listLt_cons_same _ _

theorem getD_range_map : ∀ l : List Nat,
    (List.range l.length).map (fun i => l.getD i 0) = l
  | [] => rfl
  | a :: tl => by
    rw [List.length_cons, List.range_succ_eq_map, List.map_cons, List.map_map]
    have : ((fun i => (a :: tl).getD i 0) ∘ Nat.succ) = fun i => tl.getD i 0 := by
      funext i
      rfl
    rw [this, getD_range_map tl]
    rfl

theorem sentinel_getD (t0 : List Nat) :
    (t0 ++ [36]).getD t0.length 0 = 36 := by
  have h : t0.length < (t0 ++ [36]).length := by
    simp
  rw [getD_eq_getElem_of_lt _ h]
  rw [List.getElem_append_right (Nat.le_refl t0.length)]
  simp

theorem getD_append_left {t0 : List Nat} {s : Nat} (h : s < t0.length) :
    (t0 ++ [36]).getD s 0 = t0.getD s 0 := by
  have h2 : s < (t0 ++ [36]).length := by
    simp
    omega
  rw [getD_eq_getElem_of_lt _ h2, getD_eq_getElem_of_lt _ h]
  exact List.getElem_append_left h

/-- A position holding a non-sentinel symbol is a proper text position
(not the final sentinel). -/
theorem sym_pos_lt {t0 : List Nat} {s a : Nat} (hs : s < (t0 ++ [36]).length)
    (hsym : (t0 ++ [36]).getD s 0 = a) (ha : a ≠ 36) : s < t0.length := by
  rcases Nat.lt_or_ge s t0.length with h | h
  · exact h
  · exfalso
    have hlen : (t0 ++ [36]).length = t0.length + 1 := by simp
    have hseq : s = t0.length := by omega
    rw [hseq, sentinel_getD t0] at hsym
    exact ha hsym.symm

/-- The Burrows–Wheeler transform is a permutation of the text. -/
theorem bwt_perm (t0 : List Nat) : List.Perm (bwtOf (t0 ++ [36])) (t0 ++ [36]) := by
  set t := t0 ++ [36] with ht
  have hn : t.length = t0.length + 1 := by simp [ht]
  have hmap : (List.range t.length).map
      (fun s => t.getD ((s + t.length - 1) % t.length) 0) = 36 :: t0 := by
    rw [hn, List.range_succ_eq_map, List.map_cons, List.map_map]
    congr 1
    · have hmod : (0 + (t0.length + 1) - 1) % (t0.length + 1) = t0.length := by
        have h1 : 0 + (t0.length + 1) - 1 = t0.length := by omega
        rw [h1]
        exact Nat.mod_eq_of_lt (by omega)
      rw [hmod, ht]
      exact sentinel_getD t0
    · have hcongr : ∀ s ∈ List.range t0.length,
          ((fun s => t.getD ((s + (t0.length + 1) - 1) % (t0.length + 1)) 0) ∘ Nat.succ) s
            = t0.getD s 0 := by
        intro s hs
        have hs' : s < t0.length := List.mem_range.mp hs
        show t.getD ((s + 1 + (t0.length + 1) - 1) % (t0.length + 1)) 0 = t0.getD s 0
        have hmod : (s + 1 + (t0.length + 1) - 1) % (t0.length + 1) = s := by
          have h1 : s + 1 + (t0.length + 1) - 1 = s + (t0.length + 1) := by omega
          rw [h1, Nat.add_mod_right]
          exact Nat.mod_eq_of_lt (by omega)
        rw [hmod, ht]
        exact getD_append_left hs'
      rw [List.map_congr_left hcongr, getD_range_map t0]
  have hperm1 : List.Perm (bwtOf t)
      ((List.range t.length).map (fun s => t.getD ((s + t.length - 1) % t.length) 0)) :=
    (sa_perm t).map _
  rw [hmap] at hperm1
  exact hperm1.trans (List.perm_append_singleton 36 t0).symm

/-- The boundary table of the index equals the less-than count over the text. -/
theorem less_spec (t0 : List Nat) (a : Nat) :
    (FMIndex.mk (bwtOf (t0 ++ [36]))).less a = lessT (t0 ++ [36]) a := by
  show (bwtOf (t0 ++ [36])).countP (fun c => decide (c < a)) = _
  rw [(bwt_perm t0).countP_eq]
  rw [lessT, countP_eq_countP_range]

/-- Symbol counts in the transform equal symbol counts in the text. -/
theorem count_bwt (t0 : List Nat) (a : Nat) :
    (bwtOf (t0 ++ [36])).count a = countT (t0 ++ [36]) a := by
  rw [List.count_eq_countP, (bwt_perm t0).countP_eq, countP_eq_countP_range]
  rw [countT]
  apply List.countP_congr
  intro i _
  by_cases h : (t0 ++ [36]).getD i 0 = a <;> simp [h]

theorem lessT_add_countT (t : List Nat) (a : Nat) :
    lessT t (a + 1) = lessT t a + countT t a := by
  rw [lessT, lessT, countT, countP_split (c := fun s => decide (t.getD s 0 < a))]
  congr 1
  · apply List.countP_congr
    intro i _
    by_cases h : t.getD i 0 < a
    · simp [h]
      omega
    · simp [h]
      omega
  · apply List.countP_congr
    intro i _
    by_cases h : t.getD i 0 < a <;> by_cases h2 : t.getD i 0 = a <;> simp [h, h2] <;> omega

theorem lessT_le_length (t : List Nat) (a : Nat) : lessT t a ≤ t.length := by
  have := List.countP_le_length (l := List.range t.length)
    (p := fun s => decide (t.getD s 0 < a))
  simpa [lessT] using this

theorem lessT_mono (t : List Nat) {a b : Nat} (h : a ≤ b) : lessT t a ≤ lessT t b :=
  List.countP_mono_left (fun u _ hu => by
    simp only [decide_eq_true_eq] at hu ⊢
    omega)

theorem lessT_pos (t0 : List Nat) {a : Nat} (ha : 36 < a) :
    1 ≤ lessT (t0 ++ [36]) a := by
  rw [lessT]
  apply List.countP_pos_iff.mpr
  refine ⟨t0.length, List.mem_range.mpr (by simp), ?_⟩
  rw [sentinel_getD t0]
  simpa using ha

/-- Counting over a prefix of the suffix array is counting rank-bounded
offsets over the whole suffix array. -/
theorem countP_sa_take (t : List Nat) (p : Nat → Bool) (r : Nat) :
    ((suffixArray t).take (r + 1)).countP p
      = (suffixArray t).countP (fun s => p s && decide (rankOf t s ≤ r)) := by
  conv_rhs => rw [← List.take_append_drop (r + 1) (suffixArray t)]
  rw [List.countP_append]
  have h1 : ((suffixArray t).take (r + 1)).countP (fun s => p s && decide (rankOf t s ≤ r))
      = ((suffixArray t).take (r + 1)).countP p := by
    apply List.countP_congr
    intro x hx
    rcases List.mem_iff_getElem.mp hx with ⟨j, hj, hxe⟩
    have hjr : j ≤ r := by
      have := hj
      rw [List.length_take] at this
      omega
    have hjs : j < (suffixArray t).length := by
      have := hj
      rw [List.length_take] at this
      omega
    have hxj : x = (suffixArray t).getD j 0 := by
      rw [getD_eq_getElem_of_lt _ hjs, ← hxe]
      simp
    have hrank : rankOf t x = j := by
      rw [hxj]
      exact rank_sa t j hjs
    simp [hrank, hjr]
  have h2 : ((suffixArray t).drop (r + 1)).countP (fun s => p s && decide (rankOf t s ≤ r))
      = 0 := by
    rw [List.countP_eq_zero]
    intro x hx
    rcases List.mem_iff_getElem.mp hx with ⟨j, hj, hxe⟩
    have hjs : r + 1 + j < (suffixArray t).length := by
      have := hj
      rw [List.length_drop] at this
      omega
    have hxj : x = (suffixArray t).getD (r + 1 + j) 0 := by
      rw [getD_eq_getElem_of_lt _ hjs, ← hxe]
      simp
    have hrank : rankOf t x = r + 1 + j := by
      rw [hxj]
      exact rank_sa t (r + 1 + j) hjs
    simp [hrank]
    exact fun _ => by omega
  rw [h1, h2]
  omega

theorem countP_range_shift (n : Nat) (q : Nat → Bool) (h0 : q 0 = false) :
    (List.range (n + 1)).countP q = (List.range n).countP (fun u => q (u + 1)) := by
  rw [List.range_succ_eq_map]
  rw [List.countP_cons, h0, List.countP_map]
  simp only [Bool.false_eq_true, if_false, Nat.add_zero]
  apply List.countP_congr
  intro i _
  rfl

theorem countP_range_last (n : Nat) (q : Nat → Bool) (hl : q n = false) :
    (List.range (n + 1)).countP q = (List.range n).countP q := by
  rw [List.range_succ, List.countP_append]
  simp [hl]

theorem beq_eq_decideNat (x a : Nat) : (x == a) = decide (x = a) := by
  by_cases h : x = a <;> simp [h]

/-- The rank table of the index counts, for a non-sentinel symbol `a`, the
text positions holding `a` whose successor suffix has rank at most `r`. -/
theorem occ_spec (t0 : List Nat) {a : Nat} (ha : 36 < a) (r : Nat) :
    (FMIndex.mk (bwtOf (t0 ++ [36]))).occ r a
      = (List.range (t0 ++ [36]).length).countP
          (fun u => decide ((t0 ++ [36]).getD u 0 = a)
            && decide (rankOf (t0 ++ [36]) (u + 1) ≤ r)) := by
  set t := t0 ++ [36] with ht
  have hn : t.length = t0.length + 1 := by simp [ht]
  show ((bwtOf t).take (r + 1)).count a = _
  rw [List.count_eq_countP]
  have hbwt : bwtOf t = (suffixArray t).map
      (fun s => t.getD ((s + t.length - 1) % t.length) 0) := rfl
  rw [hbwt, ← List.map_take, List.countP_map, countP_sa_take]
  rw [(sa_perm t).countP_eq]
  have hstep1 : (List.range t.length).countP
      (fun s => ((fun x => x == a) ∘ fun s => t.getD ((s + t.length - 1) % t.length) 0) s
        && decide (rankOf t s ≤ r))
      = (List.range t.length).countP
        (fun s => (decide (1 ≤ s) && decide (t.getD (s - 1) 0 = a))
          && decide (rankOf t s ≤ r)) := by
    apply List.countP_congr
    intro s hs
    have hs' : s < t.length := List.mem_range.mp hs
    have hb : (((fun x => x == a) ∘ fun s => t.getD ((s + t.length - 1) % t.length) 0) s)
        = (decide (1 ≤ s) && decide (t.getD (s - 1) 0 = a)) := by
      rcases Nat.eq_zero_or_pos s with h0 | h0
      · subst h0
        have hmod : (0 + t.length - 1) % t.length = t0.length := by
          rw [hn]
          have h1 : 0 + (t0.length + 1) - 1 = t0.length := by omega
          rw [h1]
          exact Nat.mod_eq_of_lt (by omega)
        have hg : t.getD ((0 + t.length - 1) % t.length) 0 = 36 := by
          rw [hmod, ht]
          exact sentinel_getD t0
        simp only [Function.comp_apply, hg]
        have hne : (36 == a) = false := by
          simp
          omega
        simp [hne]
      · have hmod : (s + t.length - 1) % t.length = s - 1 := by
          have h1 : s + t.length - 1 = (s - 1) + t.length := by omega
          rw [h1, Nat.add_mod_right]
          exact Nat.mod_eq_of_lt (by omega)
        have h1s : (decide (1 ≤ s)) = true := by
          simp
          omega
        simp only [Function.comp_apply, hmod, h1s, Bool.true_and]
        exact beq_eq_decideNat _ _
    rw [hb]
  rw [hstep1]
  have hQ0 : ((fun s => (decide (1 ≤ s) && decide (t.getD (s - 1) 0 = a))
      && decide (rankOf t s ≤ r)) 0) = false := by
    simp
  rw [hn, countP_range_shift _ _ hQ0]
  have hlast : ((fun u => decide (t.getD u 0 = a) && decide (rankOf t (u + 1) ≤ r))
      t0.length) = false := by
    show (decide (t.getD t0.length 0 = a) && decide (rankOf t (t0.length + 1) ≤ r)) = false
    have hsent : t.getD t0.length 0 = 36 := by
      rw [ht]
      exact sentinel_getD t0
    rw [hsent]
    have hne : decide (36 = a) = false := by
      simp
      omega
    rw [hne]
    simp
  rw [countP_range_last _ _ hlast]
  apply List.countP_congr
  intro u hu
  have h1 : (decide (1 ≤ u + 1)) = true := by simp
  have h2 : u + 1 - 1 = u := by omega
  rw [h1, h2]
  simp

theorem band_lt {t : List Nat} {s a : Nat} (hs : s < t.length)
    (hsym : t.getD s 0 < a) : rankOf t s < lessT t a := by
  apply countP_strict_mono (x := s)
  · intro u hu hlt
    have hu' : u < t.length := List.mem_range.mp hu
    have := fc_le hu' hs (by simpa using hlt)
    simp only [decide_eq_true_eq]
    omega
  · exact List.mem_range.mpr hs
  · simpa using listLt_irrefl (t.drop s)
  · simp only [decide_eq_true_eq]
    omega

theorem band_ge {t : List Nat} {s a : Nat} (hs : s < t.length)
    (hsym : a < t.getD s 0) : lessT t (a + 1) ≤ rankOf t s := by
  apply List.countP_mono_left
  intro u hu hlt
  have hu' : u < t.length := List.mem_range.mp hu
  simp only [decide_eq_true_eq] at hlt
  simpa using fc_lt hu' hs (by omega)

theorem band_of_eq {t : List Nat} {s a : Nat} (hs : s < t.length)
    (hsym : t.getD s 0 = a) :
    lessT t a ≤ rankOf t s ∧ rankOf t s < lessT t a + countT t a := by
  constructor
  · apply List.countP_mono_left
    intro u hu hlt
    have hu' : u < t.length := List.mem_range.mp hu
    simp only [decide_eq_true_eq] at hlt
    simpa using fc_lt hu' hs (by omega)
  · have h := countP_strict_mono
      (l := List.range t.length)
      (p := fun u => listLt (t.drop u) (t.drop s))
      (q := fun u => decide (t.getD u 0 < a + 1))
      (x := s)
      (fun u hu hlt => by
        have hu' : u < t.length := List.mem_range.mp hu
        have := fc_le hu' hs (by simpa using hlt)
        simp only [decide_eq_true_eq]
        omega)
      (List.mem_range.mpr hs)
      (by simpa using listLt_irrefl (t.drop s))
      (by
        simp only [decide_eq_true_eq]
        omega)
    have heq : lessT t (a + 1) = lessT t a + countT t a := lessT_add_countT t a
    have : rankOf t s < lessT t (a + 1) := h
    omega

/-- A rank inside the `a`-band forces the first symbol to be `a`. -/
theorem band_char {t : List Nat} {s a : Nat} (hs : s < t.length)
    (h1 : lessT t a ≤ rankOf t s) (h2 : rankOf t s < lessT t a + countT t a) :
    t.getD s 0 = a := by
  rcases Nat.lt_trichotomy (t.getD s 0) a with h | h | h
  · have := band_lt hs h
    omega
  · exact h
  · have := band_ge hs h
    have heq : lessT t (a + 1) = lessT t a + countT t a := lessT_add_countT t a
    omega

/-- Decomposition of a rank inside the `a`-band: boundary plus the number of
same-symbol positions whose successor suffix ranks earlier. -/
theorem rank_decomp (t0 : List Nat) {s a : Nat} (hs : s < (t0 ++ [36]).length)
    (hsym : (t0 ++ [36]).getD s 0 = a) (ha : 36 < a) :
    rankOf (t0 ++ [36]) s
      = lessT (t0 ++ [36]) a
        + (List.range (t0 ++ [36]).length).countP
            (fun u => decide ((t0 ++ [36]).getD u 0 = a)
              && decide (rankOf (t0 ++ [36]) (u + 1) < rankOf (t0 ++ [36]) (s + 1))) := by
  set t := t0 ++ [36] with ht
  have hsfc : s < t0.length := sym_pos_lt hs hsym (by omega)
  have hs1 : s + 1 < t.length := by
    simp [ht]
    omega
  rw [rankOf, countP_split (c := fun u => decide (t.getD u 0 < a))]
  have hle : (List.range t.length).countP
      (fun u => listLt (t.drop u) (t.drop s) && decide (t.getD u 0 < a))
      = lessT t a := by
    apply List.countP_congr
    intro u hu
    have hu' : u < t.length := List.mem_range.mp hu
    by_cases hua : t.getD u 0 < a
    · have h1 : listLt (t.drop u) (t.drop s) = true := fc_lt hu' hs (by omega)
      have h2 : decide (t.getD u 0 < a) = true := decide_eq_true hua
      rw [h1, h2]
      simp
    · have h2 : decide (t.getD u 0 < a) = false := decide_eq_false hua
      rw [h2]
      simp
  rw [hle]
  congr 1
  rw [countP_split
    (p := fun u => listLt (t.drop u) (t.drop s) && !(decide (t.getD u 0 < a)))
    (c := fun u => decide (t.getD u 0 = a))]
  have hgt : (List.range t.length).countP
      (fun u => (listLt (t.drop u) (t.drop s) && !(decide (t.getD u 0 < a)))
        && !(decide (t.getD u 0 = a))) = 0 := by
    rw [List.countP_eq_zero]
    intro u hu
    have hu' : u < t.length := List.mem_range.mp hu
    intro hcon
    simp only [Bool.and_eq_true] at hcon
    rcases hcon with ⟨⟨hlt, hge⟩, hne⟩
    rw [Bool.not_eq_true', decide_eq_false_iff_not] at hge hne
    have hle2 := fc_le hu' hs hlt
    rw [hsym] at hle2
    omega
  have hmid : (List.range t.length).countP
      (fun u => (listLt (t.drop u) (t.drop s) && !(decide (t.getD u 0 < a)))
        && decide (t.getD u 0 = a))
      = (List.range t.length).countP
        (fun u => decide (t.getD u 0 = a)
          && decide (rankOf t (u + 1) < rankOf t (s + 1))) := by
    apply List.countP_congr
    intro u hu
    have hu' : u < t.length := List.mem_range.mp hu
    by_cases hua : t.getD u 0 = a
    · have hufc : u < t0.length := sym_pos_lt hu' hua (by omega)
      have hu1 : u + 1 < t.length := by
        simp [ht]
        omega
      have hnlt : (!(decide (t.getD u 0 < a))) = true := by
        rw [Bool.not_eq_true', decide_eq_false_iff_not]
        omega
      have hda : decide (t.getD u 0 = a) = true := decide_eq_true hua
      have hfc := fc_eq hu' hs (by rw [hua, hsym])
      by_cases hr : rankOf t (u + 1) < rankOf t (s + 1)
      · have hlt1 : listLt (t.drop (u + 1)) (t.drop (s + 1)) = true :=
          (rank_lt_iff hu1 hs1).mpr hr
        have hlt0 : listLt (t.drop u) (t.drop s) = true := by
          rw [hfc]
          exact hlt1
        have hdr : decide (rankOf t (u + 1) < rankOf t (s + 1)) = true := decide_eq_true hr
        rw [hlt0, hnlt, hda, hdr]
        simp
      · have hlt1 : listLt (t.drop (u + 1)) (t.drop (s + 1)) = false := by
          rcases Bool.eq_false_or_eq_true (listLt (t.drop (u + 1)) (t.drop (s + 1))) with h | h
          · exact absurd ((rank_lt_iff hu1 hs1).mp h) hr
          · exact h
        have hlt0 : listLt (t.drop u) (t.drop s) = false := by
          rw [hfc]
          exact hlt1
        have hdr : decide (rankOf t (u + 1) < rankOf t (s + 1)) = false := decide_eq_false hr
        rw [hlt0, hda, hdr]
        simp
    · have hda : decide (t.getD u 0 = a) = false := decide_eq_false hua
      rw [hda]
      simp
  rw [hgt, hmid]
  omega

theorem bwt_length (t : List Nat) : (bwtOf t).length = t.length := by
  rw [bwtOf, List.length_map, sa_length]

theorem countT_eq_countP (t : List Nat) (a : Nat) :
    countT t a = (List.range t.length).countP (fun u => decide (t.getD u 0 = a)) := rfl

theorem rank_bound_low (t0 : List Nat) {a s l : Nat} (ha : 36 < a)
    (hs : s < (t0 ++ [36]).length) (hsym : (t0 ++ [36]).getD s 0 = a)
    (hge : l ≤ rankOf (t0 ++ [36]) (s + 1)) :
    lessT (t0 ++ [36]) a
      + (List.range (t0 ++ [36]).length).countP
          (fun u => decide ((t0 ++ [36]).getD u 0 = a)
            && decide (rankOf (t0 ++ [36]) (u + 1) < l))
      ≤ rankOf (t0 ++ [36]) s := by
  have hdecomp := rank_decomp t0 hs hsym ha
  have hmono : (List.range (t0 ++ [36]).length).countP
      (fun u => decide ((t0 ++ [36]).getD u 0 = a)
        && decide (rankOf (t0 ++ [36]) (u + 1) < l))
      ≤ (List.range (t0 ++ [36]).length).countP
        (fun u => decide ((t0 ++ [36]).getD u 0 = a)
          && decide (rankOf (t0 ++ [36]) (u + 1) < rankOf (t0 ++ [36]) (s + 1))) := by
    apply List.countP_mono_left
    intro u _ hu
    simp only [Bool.and_eq_true, decide_eq_true_eq] at hu ⊢
    exact ⟨hu.1, by omega⟩
  omega

theorem rank_bound_high (t0 : List Nat) {a s r : Nat} (ha : 36 < a)
    (hs : s < (t0 ++ [36]).length) (hsym : (t0 ++ [36]).getD s 0 = a)
    (hle : rankOf (t0 ++ [36]) (s + 1) ≤ r) :
    rankOf (t0 ++ [36]) s
      < lessT (t0 ++ [36]) a
        + (List.range (t0 ++ [36]).length).countP
            (fun u => decide ((t0 ++ [36]).getD u 0 = a)
              && decide (rankOf (t0 ++ [36]) (u + 1) ≤ r)) := by
  have hdecomp := rank_decomp t0 hs hsym ha
  have hstrict : (List.range (t0 ++ [36]).length).countP
      (fun u => decide ((t0 ++ [36]).getD u 0 = a)
        && decide (rankOf (t0 ++ [36]) (u + 1) < rankOf (t0 ++ [36]) (s + 1)))
      < (List.range (t0 ++ [36]).length).countP
        (fun u => decide ((t0 ++ [36]).getD u 0 = a)
          && decide (rankOf (t0 ++ [36]) (u + 1) ≤ r)) := by
    apply countP_strict_mono (x := s)
    · intro u _ hu
      simp only [Bool.and_eq_true, decide_eq_true_eq] at hu ⊢
      exact ⟨hu.1, by omega⟩
    · exact List.mem_range.mpr hs
    · simp only [Bool.and_eq_true, decide_eq_true_eq]
      rintro ⟨-, hcon⟩
      omega
    · simp only [Bool.and_eq_true, decide_eq_true_eq]
      exact ⟨hsym, hle⟩
  omega

theorem rank_inv_low (t0 : List Nat) {a s l : Nat} (ha : 36 < a)
    (hs : s < (t0 ++ [36]).length) (hsym : (t0 ++ [36]).getD s 0 = a)
    (hcontr : rankOf (t0 ++ [36]) (s + 1) < l) :
    rankOf (t0 ++ [36]) s
      < lessT (t0 ++ [36]) a
        + (List.range (t0 ++ [36]).length).countP
            (fun u => decide ((t0 ++ [36]).getD u 0 = a)
              && decide (rankOf (t0 ++ [36]) (u + 1) < l)) := by
  have hdecomp := rank_decomp t0 hs hsym ha
  have hstrict : (List.range (t0 ++ [36]).length).countP
      (fun u => decide ((t0 ++ [36]).getD u 0 = a)
        && decide (rankOf (t0 ++ [36]) (u + 1) < rankOf (t0 ++ [36]) (s + 1)))
      < (List.range (t0 ++ [36]).length).countP
        (fun u => decide ((t0 ++ [36]).getD u 0 = a)
          && decide (rankOf (t0 ++ [36]) (u + 1) < l)) := by
    apply countP_strict_mono (x := s)
    · intro u _ hu
      simp only [Bool.and_eq_true, decide_eq_true_eq] at hu ⊢
      exact ⟨hu.1, by omega⟩
    · exact List.mem_range.mpr hs
    · simp only [Bool.and_eq_true, decide_eq_true_eq]
      rintro ⟨-, hcon⟩
      omega
    · simp only [Bool.and_eq_true, decide_eq_true_eq]
      exact ⟨hsym, hcontr⟩
  omega

theorem rank_inv_high (t0 : List Nat) {a s r : Nat} (ha : 36 < a)
    (hs : s < (t0 ++ [36]).length) (hsym : (t0 ++ [36]).getD s 0 = a)
    (hcontr : r < rankOf (t0 ++ [36]) (s + 1)) :
    lessT (t0 ++ [36]) a
      + (List.range (t0 ++ [36]).length).countP
          (fun u => decide ((t0 ++ [36]).getD u 0 = a)
            && decide (rankOf (t0 ++ [36]) (u + 1) ≤ r))
      ≤ rankOf (t0 ++ [36]) s := by
  have hdecomp := rank_decomp t0 hs hsym ha
  have hmono : (List.range (t0 ++ [36]).length).countP
      (fun u => decide ((t0 ++ [36]).getD u 0 = a)
        && decide (rankOf (t0 ++ [36]) (u + 1) ≤ r))
      ≤ (List.range (t0 ++ [36]).length).countP
        (fun u => decide ((t0 ++ [36]).getD u 0 = a)
          && decide (rankOf (t0 ++ [36]) (u + 1) < rankOf (t0 ++ [36]) (s + 1))) := by
    apply List.countP_mono_left
    intro u _ hu
    simp only [Bool.and_eq_true, decide_eq_true_eq] at hu ⊢
    exact ⟨hu.1, by omega⟩
  omega

theorem countP_and_le_countT (t : List Nat) (a : Nat) (q : Nat → Bool) :
    (List.range t.length).countP (fun u => decide (t.getD u 0 = a) && q u)
      ≤ countT t a := by
  rw [countT_eq_countP]
  apply List.countP_mono_left
  intro u _ hu
  simp only [Bool.and_eq_true] at hu
  exact hu.1

theorem search_step (t0 : List Nat) (p : List Nat) {a : Nat} (ha : 36 < a)
    (lr : Nat × Nat) (hinv : SearchInv (t0 ++ [36]) p lr) :
    SearchInv (t0 ++ [36]) (a :: p)
      ((FMIndex.mk (bwtOf (t0 ++ [36]))).backwardSearchStep lr a) := by
  obtain ⟨hl_le, hr_lt, hiff⟩ := hinv
  have hoccl : (if 0 < lr.1 then (FMIndex.mk (bwtOf (t0 ++ [36]))).occ (lr.1 - 1) a else 0)
      = (List.range (t0 ++ [36]).length).countP
          (fun u => decide ((t0 ++ [36]).getD u 0 = a)
            && decide (rankOf (t0 ++ [36]) (u + 1) < lr.1)) := by
    by_cases hl : 0 < lr.1
    · rw [if_pos hl, occ_spec t0 ha]
      apply List.countP_congr
      intro u _
      have hd : decide (rankOf (t0 ++ [36]) (u + 1) ≤ lr.1 - 1)
          = decide (rankOf (t0 ++ [36]) (u + 1) < lr.1) := by
        rw [decide_eq_decide]
        omega
      rw [hd]
    · rw [if_neg hl]
      symm
      rw [List.countP_eq_zero]
      intro u _
      simp only [Bool.and_eq_true, decide_eq_true_eq]
      rintro ⟨-, hcon⟩
      omega
  have hstep : (FMIndex.mk (bwtOf (t0 ++ [36]))).backwardSearchStep lr a
      = (lessT (t0 ++ [36]) a
          + (List.range (t0 ++ [36]).length).countP
              (fun u => decide ((t0 ++ [36]).getD u 0 = a)
                && decide (rankOf (t0 ++ [36]) (u + 1) < lr.1)),
         lessT (t0 ++ [36]) a
          + (List.range (t0 ++ [36]).length).countP
              (fun u => decide ((t0 ++ [36]).getD u 0 = a)
                && decide (rankOf (t0 ++ [36]) (u + 1) ≤ lr.2)) - 1) := by
    show ((FMIndex.mk (bwtOf (t0 ++ [36]))).less a
        + (if 0 < lr.1 then (FMIndex.mk (bwtOf (t0 ++ [36]))).occ (lr.1 - 1) a else 0),
      (FMIndex.mk (bwtOf (t0 ++ [36]))).less a
        + (FMIndex.mk (bwtOf (t0 ++ [36]))).occ lr.2 a - 1) = _
    rw [hoccl, less_spec t0 a, occ_spec t0 ha lr.2]
  rw [hstep]
  have hn1 : 1 ≤ (t0 ++ [36]).length := by simp
  have hLpos : 1 ≤ lessT (t0 ++ [36]) a := lessT_pos t0 ha
  have hcl_le := countP_and_le_countT (t0 ++ [36]) a
    (fun u => decide (rankOf (t0 ++ [36]) (u + 1) < lr.1))
  have hcr_le := countP_and_le_countT (t0 ++ [36]) a
    (fun u => decide (rankOf (t0 ++ [36]) (u + 1) ≤ lr.2))
  have hLcount : lessT (t0 ++ [36]) a + countT (t0 ++ [36]) a ≤ (t0 ++ [36]).length := by
    have h1 := lessT_add_countT (t0 ++ [36]) a
    have h2 := lessT_le_length (t0 ++ [36]) (a + 1)
    omega
  refine ⟨by omega, by omega, fun s hs => ?_⟩
  have hdrop := drop_cons_getD (t := t0 ++ [36]) hs
  constructor
  · intro h
    rw [hdrop, List.isPrefixOf_cons₂] at h
    rw [Bool.and_eq_true] at h
    obtain ⟨hq, hp⟩ := h
    have hca : (t0 ++ [36]).getD s 0 = a := by
      rw [beq_eq_decideNat] at hq
      have := of_decide_eq_true hq
      omega
    have hsfc : s < t0.length := sym_pos_lt hs hca (by omega)
    have hs1 : s + 1 < (t0 ++ [36]).length := by
      simp
      omega
    have hinv1 := (hiff (s + 1) hs1).mp hp
    have hlow := rank_bound_low t0 ha hs hca hinv1.1
    have hhigh := rank_bound_high t0 ha hs hca hinv1.2
    omega
  · rintro ⟨h1, h2⟩
    have hca : (t0 ++ [36]).getD s 0 = a := by
      apply band_char hs <;> omega
    have hsfc : s < t0.length := sym_pos_lt hs hca (by omega)
    have hs1 : s + 1 < (t0 ++ [36]).length := by
      simp
      omega
    have hge_l : lr.1 ≤ rankOf (t0 ++ [36]) (s + 1) := by
      by_contra hno
      have hcon : rankOf (t0 ++ [36]) (s + 1) < lr.1 := by omega
      have := rank_inv_low t0 ha hs hca hcon
      omega
    have hle_r : rankOf (t0 ++ [36]) (s + 1) ≤ lr.2 := by
      by_contra hno
      have hcon : lr.2 < rankOf (t0 ++ [36]) (s + 1) := by omega
      have := rank_inv_high t0 ha hs hca hcon
      omega
    have hp := (hiff (s + 1) hs1).mpr ⟨hge_l, hle_r⟩
    rw [hdrop, hca, List.isPrefixOf_cons₂, hp]
    simp

theorem search_inv_nil (t0 : List Nat) :
    SearchInv (t0 ++ [36]) [] (0, (t0 ++ [36]).length - 1) := by
  refine ⟨by omega, by simp, fun s hs => ?_⟩
  have hr := rank_lt_len hs
  simp only [List.isPrefixOf_nil_left, true_iff]
  omega

theorem backward_search_cons (fm : FMIndex) (a : Nat) (p : List Nat) :
    fm.backward_search (a :: p) = fm.backwardSearchStep (fm.backward_search p) a := by
  show ((a :: p).reverse.foldl fm.backwardSearchStep (0, fm.bwt.length - 1)) = _
  rw [List.reverse_cons, List.foldl_append]
  rfl

/-- The backward-search invariant holds for every pattern over non-sentinel
symbols. -/
theorem search_inv_all (t0 : List Nat) (p : List Nat) (hp : ∀ c ∈ p, 36 < c) :
    SearchInv (t0 ++ [36]) p ((FMIndex.mk (bwtOf (t0 ++ [36]))).backward_search p) := by
  induction p with
  | nil =>
    have hinit : (FMIndex.mk (bwtOf (t0 ++ [36]))).backward_search []
        = (0, (t0 ++ [36]).length - 1) := by
      show (0, (bwtOf (t0 ++ [36])).length - 1) = _
      rw [bwt_length]
    rw [hinit]
    exact search_inv_nil t0
  | cons a rest ih =>
    rw [backward_search_cons]
    exact search_step t0 rest (hp a (by simp))
      _ (ih (fun c hc => hp c (by simp [hc])))

/-- Membership in the inclusive suffix-array slice is exactly a rank-interval
condition. -/
theorem mem_saSlice {t : List Nat} {l r s : Nat} (hr : r < t.length) :
    s ∈ saSlice t (l, r) ↔ (s < t.length ∧ l ≤ rankOf t s ∧ rankOf t s ≤ r) := by
  have hsal : (suffixArray t).length = t.length := sa_length t
  have hlen_take : (((suffixArray t).take (r + 1))).length = r + 1 := by
    rw [List.length_take]
    omega
  constructor
  · intro h
    have h2 : s ∈ ((suffixArray t).take (r + 1)).drop l := h
    rcases List.mem_iff_getElem.mp h2 with ⟨j, hj, hxe⟩
    have hj2 : l + j < r + 1 := by
      have hjl := hj
      rw [List.length_drop, hlen_take] at hjl
      omega
    have hj3 : l + j < (suffixArray t).length := by omega
    have hse : s = (suffixArray t).getD (l + j) 0 := by
      rw [getD_eq_getElem_of_lt _ hj3, ← hxe, List.getElem_drop, List.getElem_take]
    have hrank : rankOf t s = l + j := by
      rw [hse]
      exact rank_sa t (l + j) hj3
    have hmem : s < t.length := by
      rw [← sa_mem]
      rw [hse, getD_eq_getElem_of_lt _ hj3]
      exact List.getElem_mem hj3
    exact ⟨hmem, by omega, by omega⟩
  · rintro ⟨hst, hl, hrk⟩
    obtain ⟨hrlt, hsae⟩ := sa_getD_rank t s hst
    show s ∈ ((suffixArray t).take (r + 1)).drop l
    apply List.mem_iff_getElem.mpr
    have hjlen : rankOf t s - l < (((suffixArray t).take (r + 1)).drop l).length := by
      rw [List.length_drop, hlen_take]
      omega
    refine ⟨rankOf t s - l, hjlen, ?_⟩
    rw [List.getElem_drop, List.getElem_take]
    have hidx : l + (rankOf t s - l) = rankOf t s := by omega
    have hlt : l + (rankOf t s - l) < (suffixArray t).length := by
      rw [hidx]
      omega
    rw [← getD_eq_getElem_of_lt _ hlt, hidx, hsae]

theorem saSlice_nodup (t : List Nat) (lr : Nat × Nat) : (saSlice t lr).Nodup := by
  apply List.Nodup.sublist _ (sa_nodup t)
  exact (List.drop_sublist _ _).trans (List.take_sublist _ _)

theorem saSlice_mem_lt {t : List Nat} {lr : Nat × Nat} {s : Nat}
    (h : s ∈ saSlice t lr) : s < t.length := by
  rw [← sa_mem]
  exact ((List.drop_sublist _ _).trans (List.take_sublist _ _)).mem h

theorem dna_gt_sentinel {c : Nat} (h : c ∈ dnaSyms) : 36 < c := by
  simp only [dnaSyms, List.mem_cons, List.not_mem_nil, or_false] at h
  rcases h with h | h | h | h | h <;> omega

/-- Full exactness of backward search over a sentinel-terminated text: the
interval it returns, read inclusively through the suffix array, contains
exactly the offsets whose suffix the pattern prefixes. -/
theorem backward_search_exact_aux (t0 pat : List Nat)
    (hpat : ∀ c ∈ pat, 36 < c) :
    (∀ s ∈ saSlice (t0 ++ [36])
        ((FMIndex.mk (bwtOf (t0 ++ [36]))).backward_search pat),
        s < (t0 ++ [36]).length)
    ∧ (∀ s, s < (t0 ++ [36]).length →
        (s ∈ saSlice (t0 ++ [36]) ((FMIndex.mk (bwtOf (t0 ++ [36]))).backward_search pat)
          ↔ pat.isPrefixOf ((t0 ++ [36]).drop s) = true))
    ∧ (saSlice (t0 ++ [36])
        ((FMIndex.mk (bwtOf (t0 ++ [36]))).backward_search pat)).Nodup := by
  have hinv := search_inv_all t0 pat hpat
  obtain ⟨hl, hr, hiff⟩ := hinv
  refine ⟨fun s hs => saSlice_mem_lt hs, fun s hs => ?_, saSlice_nodup _ _⟩
  have hpair : (FMIndex.mk (bwtOf (t0 ++ [36]))).backward_search pat
      = (((FMIndex.mk (bwtOf (t0 ++ [36]))).backward_search pat).1,
         ((FMIndex.mk (bwtOf (t0 ++ [36]))).backward_search pat).2) := rfl
  rw [hpair, mem_saSlice hr, hiff s hs]
  constructor
  · rintro ⟨-, h1, h2⟩
    exact ⟨h1, h2⟩
  · rintro ⟨h1, h2⟩
    exact ⟨hs, h1, h2⟩

/-- `backward_ext` computes, for every alphabet symbol, exactly the spec's
candidate formulas. -/
theorem backward_ext_char (idx : FMDIndex) (i : BiInterval) {a : Nat}
    (ha : a ∈ fmdAlphabet) :
    idx.backward_ext i a
      = ⟨extLower idx i a, extLowerRev idx i a, extSize idx i a, i.match_size + 1⟩ := by
  have hcases : a = 36 ∨ a = 65 ∨ a = 67 ∨ a = 71 ∨ a = 84 ∨ a = 78 := by
    simpa [fmdAlphabet] using ha
  rcases hcases with h | h | h | h | h | h <;> subst h <;>
    (simp [FMDIndex.backward_ext, fmdAlphabet, revPassOrder, updateBuf,
      extLower, extLowerRev, extSize, List.takeWhile]
     try omega)

/-- Outside the alphabet, `backward_ext` returns the untouched (all-zero)
buffer cell, with only `match_size` updated. -/
theorem backward_ext_other (idx : FMDIndex) (i : BiInterval) {a : Nat}
    (ha : ¬ a ∈ fmdAlphabet) :
    idx.backward_ext i a = ⟨0, 0, 0, i.match_size + 1⟩ := by
  have h36 : a ≠ 36 := by
    intro h
    exact ha (by simp [fmdAlphabet, h])
  have h65 : a ≠ 65 := by
    intro h
    exact ha (by simp [fmdAlphabet, h])
  have h67 : a ≠ 67 := by
    intro h
    exact ha (by simp [fmdAlphabet, h])
  have h71 : a ≠ 71 := by
    intro h
    exact ha (by simp [fmdAlphabet, h])
  have h84 : a ≠ 84 := by
    intro h
    exact ha (by simp [fmdAlphabet, h])
  have h78 : a ≠ 78 := by
    intro h
    exact ha (by simp [fmdAlphabet, h])
  simp [FMDIndex.backward_ext, fmdAlphabet, revPassOrder, updateBuf,
    h36, h65, h67, h71, h84, h78]

/-- An empty interval stays empty under `backward_ext`, whatever the symbol. -/
theorem backward_ext_size_zero (idx : FMDIndex) (i : BiInterval) (h : i.size = 0)
    (a : Nat) : (idx.backward_ext i a).size = 0 := by
  by_cases ha : a ∈ fmdAlphabet
  · rw [backward_ext_char idx i ha]
    show extSize idx i a = 0
    rw [extSize, h, Nat.add_zero, Nat.sub_self]
  · rw [backward_ext_other idx i ha]

/-- An empty interval stays empty under `forward_ext` as well. -/
theorem forward_ext_size_zero (idx : FMDIndex) (i : BiInterval) (h : i.size = 0)
    (a : Nat) : (idx.forward_ext i a).size = 0 := by
  show ((idx.backward_ext i.swapped (comp a)).swapped).size = 0
  show (idx.backward_ext i.swapped (comp a)).size = 0
  exact backward_ext_size_zero idx i.swapped h (comp a)

theorem occ_le_count (fm : FMIndex) (r a : Nat) : fm.occ r a ≤ fm.bwt.count a :=
  List.Sublist.count_le (List.take_sublist _ _) a

theorem occ_mono (fm : FMIndex) {r1 r2 : Nat} (h : r1 ≤ r2) (a : Nat) :
    fm.occ r1 a ≤ fm.occ r2 a := by
  show (fm.bwt.take (r1 + 1)).count a ≤ (fm.bwt.take (r2 + 1)).count a
  have heq : fm.bwt.take (r1 + 1) = (fm.bwt.take (r2 + 1)).take (r1 + 1) := by
    rw [List.take_take]
    congr 1
    omega
  rw [heq]
  exact List.Sublist.count_le (List.take_sublist _ _) a

theorem less_add_count_le (fm : FMIndex) (a : Nat) :
    fm.less a + fm.bwt.count a ≤ fm.bwt.length := by
  have hsplit := countP_split (fun c => decide (c < a + 1)) (fun c => decide (c < a)) fm.bwt
  have h1 : fm.bwt.countP (fun x => decide (x < a + 1) && decide (x < a))
      = fm.less a := by
    show _ = fm.bwt.countP (fun c => decide (c < a))
    apply List.countP_congr
    intro c _
    by_cases h : c < a
    · have h2 : c < a + 1 := by omega
      simp [h, h2]
    · simp [h]
  have h2 : fm.bwt.countP (fun x => decide (x < a + 1) && !(decide (x < a)))
      = fm.bwt.count a := by
    rw [List.count_eq_countP]
    apply List.countP_congr
    intro c _
    by_cases h : c = a
    · subst h
      simp
      try omega
    · by_cases h3 : c < a + 1 <;> by_cases h4 : c < a <;>
        simp [h3, h4, beq_eq_decideNat, h] <;> try omega
  have h3 := List.countP_le_length (l := fm.bwt) (p := fun c => decide (c < a + 1))
  omega

theorem less_pos_of_mem (fm : FMIndex) {a : Nat} (hsent : 36 ∈ fm.bwt) (ha : 36 < a) :
    1 ≤ fm.less a := by
  apply List.countP_pos_iff.mpr
  exact ⟨36, hsent, by simpa using ha⟩

/-- One checked step succeeds and preserves the range bounds; an empty
interval of the canonical shape `l = r + 1` stays exactly of that shape. -/
theorem checked_step (fm : FMIndex) {a : Nat} (hsent : 36 ∈ fm.bwt) (ha : 36 < a)
    (lr : Nat × Nat) (hl : lr.1 ≤ fm.bwt.length) (hr : lr.2 < fm.bwt.length) :
    fm.backwardSearchStepChecked lr a = some (fm.backwardSearchStep lr a)
    ∧ (fm.backwardSearchStep lr a).1 ≤ fm.bwt.length
    ∧ (fm.backwardSearchStep lr a).2 < fm.bwt.length
    ∧ (lr.1 = lr.2 + 1 →
        (fm.backwardSearchStep lr a).1 = (fm.backwardSearchStep lr a).2 + 1) := by
  have hlen : 1 ≤ fm.bwt.length := by
    rcases List.mem_iff_getElem.mp hsent with ⟨j, hj, -⟩
    omega
  have hLpos : 1 ≤ fm.less a := less_pos_of_mem fm hsent ha
  have hocc2 : fm.occChecked lr.2 a = some (fm.occ lr.2 a) := by
    rw [FMIndex.occChecked, if_pos hr]
  have hocc1 : (if 0 < lr.1 then fm.occChecked (lr.1 - 1) a else some 0)
      = some (if 0 < lr.1 then fm.occ (lr.1 - 1) a else 0) := by
    by_cases h : 0 < lr.1
    · rw [if_pos h, if_pos h, FMIndex.occChecked, if_pos (by omega)]
    · rw [if_neg h, if_neg h]
  have hguard : ¬ (fm.less a + fm.occ lr.2 a = 0) := by omega
  have hstep_eq : fm.backwardSearchStep lr a
      = (fm.less a + (if 0 < lr.1 then fm.occ (lr.1 - 1) a else 0),
         fm.less a + fm.occ lr.2 a - 1) := rfl
  have hchecked : fm.backwardSearchStepChecked lr a
      = some (fm.backwardSearchStep lr a) := by
    rw [FMIndex.backwardSearchStepChecked, hocc1, hocc2]
    show (if fm.less a + fm.occ lr.2 a = 0 then none
      else some (fm.less a + (if 0 < lr.1 then fm.occ (lr.1 - 1) a else 0),
        fm.less a + fm.occ lr.2 a - 1)) = _
    rw [if_neg hguard, hstep_eq]
  have hb1 : (if 0 < lr.1 then fm.occ (lr.1 - 1) a else 0) ≤ fm.bwt.count a := by
    by_cases h : 0 < lr.1
    · rw [if_pos h]
      exact occ_le_count fm _ a
    · rw [if_neg h]
      omega
  have hb2 : fm.occ lr.2 a ≤ fm.bwt.count a := occ_le_count fm _ a
  have hbound := less_add_count_le fm a
  refine ⟨hchecked, ?_, ?_, ?_⟩
  · rw [hstep_eq]
    simp only
    omega
  · rw [hstep_eq]
    simp only
    omega
  · intro hempty
    rw [hstep_eq]
    simp only
    have h1 : 0 < lr.1 := by omega
    rw [if_pos h1]
    have heq : lr.1 - 1 = lr.2 := by omega
    rw [heq]
    omega

/-- A whole checked fold over non-sentinel symbols succeeds, keeps the bounds,
and preserves canonical emptiness `l = r + 1`. -/
theorem checked_fold (fm : FMIndex) (hsent : 36 ∈ fm.bwt) :
    ∀ (q : List Nat), (∀ c ∈ q, 36 < c) → ∀ (lr : Nat × Nat),
      lr.1 ≤ fm.bwt.length → lr.2 < fm.bwt.length →
      (q.foldl (fun acc a => acc.bind (fun p => fm.backwardSearchStepChecked p a)) (some lr)
          = some (q.foldl fm.backwardSearchStep lr))
      ∧ (q.foldl fm.backwardSearchStep lr).1 ≤ fm.bwt.length
      ∧ (q.foldl fm.backwardSearchStep lr).2 < fm.bwt.length
      ∧ (lr.1 = lr.2 + 1 → (q.foldl fm.backwardSearchStep lr).1
          = (q.foldl fm.backwardSearchStep lr).2 + 1)
  | [], _, lr, hl, hr => ⟨rfl, hl, hr, fun h => h⟩
  | a :: rest, hq, lr, hl, hr => by
    have ha : 36 < a := hq a (by simp)
    obtain ⟨hck, hb1, hb2, hemp⟩ := checked_step fm hsent ha lr hl hr
    have ih := checked_fold fm hsent rest (fun c hc => hq c (by simp [hc]))
      (fm.backwardSearchStep lr a) hb1 hb2
    obtain ⟨ih1, ih2, ih3, ih4⟩ := ih
    refine ⟨?_, ih2, ih3, fun h => ih4 (hemp h)⟩
    show ((some lr).bind (fun p => fm.backwardSearchStepChecked p a)
        |> rest.foldl (fun acc a => acc.bind (fun p => fm.backwardSearchStepChecked p a)))
      = _
    rw [Option.bind, hck]
    exact ih1

/-- One step on a symbol absent from the transform yields the canonical empty
interval. -/
theorem step_absent (fm : FMIndex) {a : Nat} (hsent : 36 ∈ fm.bwt) (ha : 36 < a)
    (hcount : fm.bwt.count a = 0) (lr : Nat × Nat) :
    (fm.backwardSearchStep lr a).1 = (fm.backwardSearchStep lr a).2 + 1 := by
  have hLpos : 1 ≤ fm.less a := less_pos_of_mem fm hsent ha
  have h1 : fm.occ (lr.1 - 1) a = 0 := by
    have := occ_le_count fm (lr.1 - 1) a
    omega
  have h2 : fm.occ lr.2 a = 0 := by
    have := occ_le_count fm lr.2 a
    omega
  show fm.less a + (if 0 < lr.1 then fm.occ (lr.1 - 1) a else 0)
      = fm.less a + fm.occ lr.2 a - 1 + 1
  rw [h1, h2]
  by_cases h : 0 < lr.1 <;> simp [h] <;> omega

/-- Backward search over a pattern containing a symbol absent from the
transform: every checked operation succeeds and the result is empty
(`low > high`). -/
theorem search_absent_fm (fm : FMIndex) (hsent : 36 ∈ fm.bwt) (u v : List Nat) (a : Nat)
    (hu : ∀ c ∈ u, 36 < c) (hv : ∀ c ∈ v, 36 < c) (ha : 36 < a)
    (hcnt : fm.bwt.count a = 0) :
    fm.backward_search_checked (u ++ a :: v) = some (fm.backward_search (u ++ a :: v))
    ∧ (fm.backward_search (u ++ a :: v)).2 < (fm.backward_search (u ++ a :: v)).1 := by
  have hlen1 : 1 ≤ fm.bwt.length := by
    rcases List.mem_iff_getElem.mp hsent with ⟨j, hj, -⟩
    omega
  have hrev : (u ++ a :: v).reverse = (v.reverse ++ [a]) ++ u.reverse := by
    rw [List.reverse_append, List.reverse_cons]
  have hbs : fm.backward_search (u ++ a :: v)
      = u.reverse.foldl fm.backwardSearchStep
          (fm.backwardSearchStep
            (v.reverse.foldl fm.backwardSearchStep (0, fm.bwt.length - 1)) a) := by
    show (u ++ a :: v).reverse.foldl _ _ = _
    rw [hrev, List.foldl_append, List.foldl_append]
    rfl
  obtain ⟨h1eq, h1b1, h1b2, -⟩ := checked_fold fm hsent v.reverse
    (fun c hc => hv c (by simpa using hc)) (0, fm.bwt.length - 1) (by omega) (by omega)
  obtain ⟨h2eq, h2b1, h2b2, -⟩ := checked_step fm hsent ha
    (v.reverse.foldl fm.backwardSearchStep (0, fm.bwt.length - 1)) h1b1 h1b2
  have hmid_empty := step_absent fm hsent ha hcnt
    (v.reverse.foldl fm.backwardSearchStep (0, fm.bwt.length - 1))
  obtain ⟨h3eq, -, -, h3emp⟩ := checked_fold fm hsent u.reverse
    (fun c hc => hu c (by simpa using hc))
    (fm.backwardSearchStep
      (v.reverse.foldl fm.backwardSearchStep (0, fm.bwt.length - 1)) a) h2b1 h2b2
  have hfinal := h3emp hmid_empty
  constructor
  · show (if fm.bwt.length = 0 then none else _) = _
    rw [if_neg (by omega), hrev, List.foldl_append, List.foldl_append, h1eq]
    show u.reverse.foldl _
        ((some _).bind (fun p => fm.backwardSearchStepChecked p a)) = _
    rw [Option.some_bind, h2eq, h3eq, hbs]
  · rw [hbs]
    omega

/-- With `lower = 0` the very first rank query underflows: no result. -/
theorem backward_ext_checked_underflow (idx : FMDIndex) (interval : BiInterval)
    (h : interval.lower = 0) (a : Nat) :
    idx.backward_ext_checked interval a = none := by
  simp [FMDIndex.backward_ext_checked, fmdAlphabet, natPredChecked, h]

/-- With `lower ≥ 1` and the interval inside the text, every checked
operation succeeds and the checked extension agrees with `backward_ext`. -/
theorem backward_ext_checked_ok (idx : FMDIndex) (interval : BiInterval)
    (h1 : 1 ≤ interval.lower) (h2 : interval.lower + interval.size ≤ idx.fmindex.bwt.length)
    (a : Nat) :
    idx.backward_ext_checked interval a = some (idx.backward_ext interval a) := by
  have hp1 : natPredChecked interval.lower = some (interval.lower - 1) := by
    rw [natPredChecked, if_neg (by omega)]
  have hp2 : natPredChecked (interval.lower + interval.size)
      = some (interval.lower + interval.size - 1) := by
    rw [natPredChecked, if_neg (by omega)]
  have ho1 : ∀ b, idx.fmindex.occChecked (interval.lower - 1) b
      = some (idx.fmindex.occ (interval.lower - 1) b) := by
    intro b
    rw [FMIndex.occChecked, if_pos (by omega)]
  have ho2 : ∀ b, idx.fmindex.occChecked (interval.lower + interval.size - 1) b
      = some (idx.fmindex.occ (interval.lower + interval.size - 1) b) := by
    intro b
    rw [FMIndex.occChecked, if_pos (by omega)]
  have hsub : ∀ b, natSubChecked (idx.fmindex.occ (interval.lower + interval.size - 1) b)
      (idx.fmindex.occ (interval.lower - 1) b)
      = some (idx.fmindex.occ (interval.lower + interval.size - 1) b
          - idx.fmindex.occ (interval.lower - 1) b) := by
    intro b
    rw [natSubChecked, if_pos (occ_mono idx.fmindex (by omega) b)]
  simp [FMDIndex.backward_ext_checked, FMDIndex.backward_ext, fmdAlphabet,
    hp1, hp2, ho1, ho2, hsub]

theorem less_succ (fm : FMIndex) (a : Nat) :
    fm.less (a + 1) = fm.less a + fm.bwt.count a := by
  have hsplit := countP_split (fun c => decide (c < a + 1)) (fun c => decide (c < a)) fm.bwt
  have h1 : fm.bwt.countP (fun x => decide (x < a + 1) && decide (x < a))
      = fm.less a := by
    show _ = fm.bwt.countP (fun c => decide (c < a))
    apply List.countP_congr
    intro c _
    by_cases h : c < a
    · have h2 : c < a + 1 := by omega
      simp [h, h2]
    · simp [h]
  have h2 : fm.bwt.countP (fun x => decide (x < a + 1) && !(decide (x < a)))
      = fm.bwt.count a := by
    rw [List.count_eq_countP]
    apply List.countP_congr
    intro c _
    by_cases h : c = a
    · subst h
      simp
      try omega
    · by_cases h3 : c < a + 1 <;> by_cases h4 : c < a <;>
        simp [h3, h4, beq_eq_decideNat, h] <;> try omega
  show fm.bwt.countP (fun c => decide (c < a + 1)) = _
  omega

/-- The seed interval of an absent pivot symbol has size zero. -/
theorem init_interval_absent (idx : FMDIndex) (pattern : List Nat) (i : Nat)
    (hcnt : idx.fmindex.bwt.count (pattern.getD i 0) = 0) :
    (idx.init_interval pattern i).size = 0 := by
  show idx.fmindex.less (pattern.getD i 0 + 1) - idx.fmindex.less (pattern.getD i 0) = 0
  rw [less_succ, hcnt]
  omega

/-- The forward sweep on a size-zero seed stops immediately and records just
the seed. -/
theorem fwdLoop_zero (idx : FMDIndex) (rest : List Nat) (seed : BiInterval)
    (hsize : seed.size = 0) :
    idx.fwdLoop rest seed [] = [seed] := by
  cases rest with
  | nil => rfl
  | cons a tail =>
    have hext : (idx.forward_ext seed a).size = 0 := forward_ext_size_zero idx seed hsize a
    simp [FMDIndex.fwdLoop, hsize, hext]

/-- The backward sweep on a single size-zero candidate records it once and
stops. -/
theorem bwdLoop_zero (idx : FMDIndex) (pattern : List Nat) (seed : BiInterval)
    (hsize : seed.size = 0) (k : Int) (ks : List Int) (j : Int) (hkj : k < j) :
    idx.bwdLoop pattern (k :: ks) [seed] j [] = [seed] := by
  have hext : ∀ b, (idx.backward_ext seed b).size = 0 :=
    fun b => backward_ext_size_zero idx seed hsize b
  simp [FMDIndex.bwdLoop, FMDIndex.bwdInnerStep, hext, hkj]

/-- `smems` on a pattern whose pivot symbol is absent from the transform:
one zero-size interval is returned (never an empty vector). -/
theorem smems_absent_aux (idx : FMDIndex) (pattern : List Nat) (i : Nat)
    (hi : i < pattern.length)
    (hcnt : idx.fmindex.bwt.count (pattern.getD i 0) = 0) :
    idx.smems pattern i = [idx.init_interval pattern i]
    ∧ (idx.init_interval pattern i).size = 0
    ∧ (idx.init_interval pattern i).match_size = 1 := by
  have hsize : (idx.init_interval pattern i).size = 0 :=
    init_interval_absent idx pattern i hcnt
  refine ⟨?_, hsize, rfl⟩
  have hks : ((List.range (i + 1)).map (fun x => Int.ofNat x - 1)).reverse
      = (Int.ofNat i - 1) :: ((List.range i).map (fun x => Int.ofNat x - 1)).reverse := by
    rw [List.range_succ, List.map_append, List.reverse_append]
    simp
  show idx.bwdLoop pattern (((List.range (i + 1)).map (fun x => Int.ofNat x - 1)).reverse)
      (idx.fwdLoop (pattern.drop (i + 1)) (idx.init_interval pattern i) [])
      (pattern.length : Int) [] = _
  rw [hks, fwdLoop_zero idx _ _ hsize]
  refine bwdLoop_zero idx pattern _ hsize _ _ _ ?_
  rw [Int.ofNat_eq_coe]
  omega

theorem less_le_length (fm : FMIndex) (a : Nat) : fm.less a ≤ fm.bwt.length := by
  have := List.countP_le_length (l := fm.bwt) (p := fun c => decide (c < a))
  exact this

theorem comp_dna {a : Nat} (h : a ∈ dnaSyms) : comp a ∈ dnaSyms := by
  simp only [dnaSyms, List.mem_cons, List.not_mem_nil, or_false] at h ⊢
  rcases h with h | h | h | h | h <;> subst h <;> decide

theorem forward_ext_checked_ok (idx : FMDIndex) (interval : BiInterval)
    (h1 : 1 ≤ interval.lower_rev)
    (h2 : interval.lower_rev + interval.size ≤ idx.fmindex.bwt.length) (a : Nat) :
    idx.forward_ext_checked interval a = some (idx.forward_ext interval a) := by
  show (idx.backward_ext_checked interval.swapped (comp a)).map BiInterval.swapped = _
  rw [backward_ext_checked_ok idx interval.swapped h1 h2 (comp a)]
  rfl

/-- The checked forward sweep on a size-zero seed with an in-range mirrored
interval: no hazard fires, and only the seed is recorded. -/
theorem fwdLoopChecked_zero (idx : FMDIndex) (rest : List Nat) (seed : BiInterval)
    (hsize : seed.size = 0) (h1 : 1 ≤ seed.lower_rev)
    (h2 : seed.lower_rev + seed.size ≤ idx.fmindex.bwt.length) :
    idx.fwdLoopChecked rest seed [] = some [seed] := by
  cases rest with
  | nil => rfl
  | cons a tail =>
    have hck := forward_ext_checked_ok idx seed h1 h2 a
    have hext : (idx.forward_ext seed a).size = 0 := forward_ext_size_zero idx seed hsize a
    simp [FMDIndex.fwdLoopChecked, hck, hsize, hext]

/-- The checked backward sweep on a single in-range size-zero candidate:
the one extension succeeds, the candidate is recorded once, and the sweep
stops. -/
theorem bwdLoopChecked_zero (idx : FMDIndex) (pattern : List Nat) (seed : BiInterval)
    (hsize : seed.size = 0) (h1 : 1 ≤ seed.lower)
    (h2 : seed.lower + seed.size ≤ idx.fmindex.bwt.length)
    (k : Int) (ks : List Int) (j : Int) (hkj : k < j) :
    idx.bwdLoopChecked pattern (k :: ks) [seed] j [] = some [seed] := by
  have hck : ∀ b, idx.backward_ext_checked seed b = some (idx.backward_ext seed b) :=
    fun b => backward_ext_checked_ok idx seed h1 h2 b
  have hext : ∀ b, (idx.backward_ext seed b).size = 0 :=
    fun b => backward_ext_size_zero idx seed hsize b
  simp [FMDIndex.bwdLoopChecked, FMDIndex.bwdInnerStepChecked, hck, hext, hkj]

/-- Checked `smems` on an absent alphabet pivot over a sentinel-bearing
transform: every rank query is in range, nothing underflows, and the result
is exactly the zero-size seed. -/
theorem smems_checked_absent_aux (idx : FMDIndex) (pattern : List Nat) (i : Nat)
    (hsent : 36 ∈ idx.fmindex.bwt) (hdna : pattern.getD i 0 ∈ dnaSyms)
    (hi : i < pattern.length)
    (hcnt : idx.fmindex.bwt.count (pattern.getD i 0) = 0) :
    idx.smems_checked pattern i = some [idx.init_interval pattern i] := by
  have hsize : (idx.init_interval pattern i).size = 0 :=
    init_interval_absent idx pattern i hcnt
  have hgt : 36 < pattern.getD i 0 := dna_gt_sentinel hdna
  have hgtc : 36 < comp (pattern.getD i 0) := dna_gt_sentinel (comp_dna hdna)
  have hL : (idx.init_interval pattern i).lower
      = idx.fmindex.less (pattern.getD i 0) := rfl
  have hLR : (idx.init_interval pattern i).lower_rev
      = idx.fmindex.less (comp (pattern.getD i 0)) := rfl
  have hlow : 1 ≤ (idx.init_interval pattern i).lower := by
    rw [hL]
    exact less_pos_of_mem idx.fmindex hsent hgt
  have hlowr : 1 ≤ (idx.init_interval pattern i).lower_rev := by
    rw [hLR]
    exact less_pos_of_mem idx.fmindex hsent hgtc
  have hlen1 : (idx.init_interval pattern i).lower + (idx.init_interval pattern i).size
      ≤ idx.fmindex.bwt.length := by
    have hb := less_le_length idx.fmindex (pattern.getD i 0)
    rw [hL, hsize]
    omega
  have hlen2 : (idx.init_interval pattern i).lower_rev + (idx.init_interval pattern i).size
      ≤ idx.fmindex.bwt.length := by
    have hb := less_le_length idx.fmindex (comp (pattern.getD i 0))
    rw [hLR, hsize]
    omega
  have hks : ((List.range (i + 1)).map (fun x => Int.ofNat x - 1)).reverse
      = (Int.ofNat i - 1) :: ((List.range i).map (fun x => Int.ofNat x - 1)).reverse := by
    rw [List.range_succ, List.map_append, List.reverse_append]
    simp
  show (idx.fwdLoopChecked (pattern.drop (i + 1)) (idx.init_interval pattern i) []).bind
      (fun prev => idx.bwdLoopChecked pattern
        (((List.range (i + 1)).map (fun x => Int.ofNat x - 1)).reverse) prev
        (pattern.length : Int) []) = _
  rw [fwdLoopChecked_zero idx _ _ hsize hlowr hlen2, Option.some_bind, hks]
  refine bwdLoopChecked_zero idx pattern _ hsize hlow hlen1 _ _ _ ?_
  rw [Int.ofNat_eq_coe]
  omega

/-- C1: for every pattern over the DNA alphabet and every sentinel-terminated
text over it, `backward_search` applies the update rule
`l = less(a) + occ(l-1, a)` (with `occ(-1, a) = 0`),
`r = less(a) + occ(r, a) - 1` per consumed symbol, starting from the full
interval, and the resulting interval, read inclusively through the paired
suffix array, denotes exactly the set of starting offsets at which the
pattern occurs verbatim in the text: every listed offset is in range, an
offset is listed iff the pattern occurs there, and no offset is listed
twice. -/
theorem claim_C1_backward_search_exact (t0 pat : List Nat)
    (hT : ∀ c ∈ t0, c ∈ dnaSyms) (hP : ∀ c ∈ pat, c ∈ dnaSyms) :
    (∀ s ∈ saSlice (t0 ++ [36])
        ((FMIndex.mk (bwtOf (t0 ++ [36]))).backward_search pat),
        s < (t0 ++ [36]).length)
    ∧ (∀ s, s < (t0 ++ [36]).length →
        (s ∈ saSlice (t0 ++ [36]) ((FMIndex.mk (bwtOf (t0 ++ [36]))).backward_search pat)
          ↔ pat.isPrefixOf ((t0 ++ [36]).drop s) = true))
    ∧ (saSlice (t0 ++ [36])
        ((FMIndex.mk (bwtOf (t0 ++ [36]))).backward_search pat)).Nodup :=
  backward_search_exact_aux t0 pat (fun c hc => dna_gt_sentinel (hP c hc))

/-- Witness for C1 at the text `ACA$` and pattern `A`. -/
theorem claim_C1_witness :
    (∀ c ∈ [65, 67, 65], c ∈ dnaSyms) ∧ (∀ c ∈ [65], c ∈ dnaSyms)
    ∧ (∀ s, s < (([65, 67, 65] : List Nat) ++ [36]).length →
        (s ∈ saSlice ([65, 67, 65] ++ [36])
            ((FMIndex.mk (bwtOf ([65, 67, 65] ++ [36]))).backward_search [65])
          ↔ [65].isPrefixOf ((([65, 67, 65] : List Nat) ++ [36]).drop s) = true)) :=
  ⟨by decide, by decide,
    (claim_C1_backward_search_exact [65, 67, 65] [65] (by decide) (by decide)).2.1⟩

/-- C2 counterexample: a non-empty interval (`size = 1`) with `lower = 0`.
The claim quantifies over every non-empty interval, but here the very first
rank query computes `interval.lower - 1` on a `usize`, which underflows, so
`backward_ext` aborts instead of returning the claimed interval: the checked
extension yields no interval at all. -/
theorem claim_C2_counterexample :
    (⟨0, 0, 1, 0⟩ : BiInterval).size ≠ 0
    ∧ (FMDIndex.mk ⟨bwtOf textC⟩).backward_ext_checked ⟨0, 0, 1, 0⟩ 65 = none :=
  ⟨by decide, backward_ext_checked_underflow _ _ rfl 65⟩

/-- C2 (amended): for every non-empty interval that additionally satisfies
`lower ≥ 1` (the precondition of C9) and every alphabet symbol `a`,
`backward_ext` returns the interval with
`lower = less(a) + occ(lower - 1, a)`,
`size = occ(lower + size - 1, a) - occ(lower - 1, a)`,
`match_size` incremented by one, and `lower_rev` given by the running sum
over the complement-order sequence (sentinel first, then `T`, `G`, `C`, `A`,
`N`): the sentinel candidate's reverse start is the input's `lower_rev`, and
each later candidate adds the previous candidate's size — no rank query
appears in the reverse-start formulas. -/
theorem claim_C2_backward_ext_formulas (idx : FMDIndex) (i : BiInterval) (a : Nat)
    (ha : a ∈ fmdAlphabet) (hne : i.size ≠ 0) (hlow : 1 ≤ i.lower) :
    idx.backward_ext i a
      = ⟨extLower idx i a, extLowerRev idx i a, extSize idx i a, i.match_size + 1⟩ :=
  backward_ext_char idx i ha

/-- Witness for C2 on the bidirectional scenario index. -/
theorem claim_C2_witness :
    (65 ∈ fmdAlphabet) ∧ ((⟨2, 2, 1, 1⟩ : BiInterval).size ≠ 0)
    ∧ (1 ≤ (⟨2, 2, 1, 1⟩ : BiInterval).lower)
    ∧ (FMDIndex.mk ⟨bwtOf textC⟩).backward_ext ⟨2, 2, 1, 1⟩ 65
        = ⟨extLower (FMDIndex.mk ⟨bwtOf textC⟩) ⟨2, 2, 1, 1⟩ 65,
           extLowerRev (FMDIndex.mk ⟨bwtOf textC⟩) ⟨2, 2, 1, 1⟩ 65,
           extSize (FMDIndex.mk ⟨bwtOf textC⟩) ⟨2, 2, 1, 1⟩ 65,
           (⟨2, 2, 1, 1⟩ : BiInterval).match_size + 1⟩ :=
  ⟨by decide, by decide, by decide,
    claim_C2_backward_ext_formulas (FMDIndex.mk ⟨bwtOf textC⟩) ⟨2, 2, 1, 1⟩ 65
      (by decide) (by decide) (by decide)⟩

/-- C3: on the bidirectional text built from `GCCTTAACAT`, a sentinel, its
reverse complement and a sentinel, `smems` with pattern `CTTAA` and pivot `1`
returns exactly one interval; its forward occurrence positions through the
suffix array are `{2}`, its reverse-complement occurrence positions are
`{14}`, and its matched length is `5`. -/
theorem claim_C3_smems_scenario :
    ((FMDIndex.mk ⟨bwtOf textC⟩).smems [67, 84, 84, 65, 65] 1).length = 1
    ∧ (((FMDIndex.mk ⟨bwtOf textC⟩).smems [67, 84, 84, 65, 65] 1).getD 0 ⟨0, 0, 0, 0⟩).occ
        (suffixArray textC) = [2]
    ∧ (((FMDIndex.mk ⟨bwtOf textC⟩).smems [67, 84, 84, 65, 65] 1).getD 0
        ⟨0, 0, 0, 0⟩).occ_revcomp (suffixArray textC) = [14]
    ∧ (((FMDIndex.mk ⟨bwtOf textC⟩).smems [67, 84, 84, 65, 65] 1).getD 0
        ⟨0, 0, 0, 0⟩).match_size = 5 := by decide

/-- C4: `forward_ext` is the mirror of `backward_ext` on the mirrored
interval with the complemented symbol, as an equation between the embedded
functions. -/
theorem claim_C4_forward_ext_is_mirrored_backward_ext (idx : FMDIndex)
    (i : BiInterval) (a : Nat) :
    idx.forward_ext i a = (idx.backward_ext i.swapped (comp a)).swapped := rfl

/-- C5: for a sentinel-terminated DNA text and a DNA pattern containing a
symbol that does not occur in the text, `backward_search` returns an empty
interval (`low > high`), and every `occ`/`less` access of the search is in
range with no `usize` underflow (the checked search succeeds and agrees). -/
theorem claim_C5_absent_symbol_safe (t0 pat : List Nat)
    (hT : ∀ c ∈ t0, c ∈ dnaSyms) (hP : ∀ c ∈ pat, c ∈ dnaSyms)
    (habs : ∃ a ∈ pat, (t0 ++ [36]).count a = 0) :
    (FMIndex.mk (bwtOf (t0 ++ [36]))).backward_search_checked pat
      = some ((FMIndex.mk (bwtOf (t0 ++ [36]))).backward_search pat)
    ∧ ((FMIndex.mk (bwtOf (t0 ++ [36]))).backward_search pat).2
        < ((FMIndex.mk (bwtOf (t0 ++ [36]))).backward_search pat).1 := by
  obtain ⟨a, hmem, hcnt⟩ := habs
  obtain ⟨u, v, rfl⟩ := List.append_of_mem hmem
  apply search_absent_fm
  · show 36 ∈ bwtOf (t0 ++ [36])
    rw [(bwt_perm t0).mem_iff]
    simp
  · intro c hc
    exact dna_gt_sentinel (hP c (by simp [hc]))
  · intro c hc
    exact dna_gt_sentinel (hP c (by simp [hc]))
  · exact dna_gt_sentinel (hP a (by simp))
  · show (bwtOf (t0 ++ [36])).count a = 0
    rw [(bwt_perm t0).count_eq]
    exact hcnt

/-- Witness for C5 at text `A$` and pattern `C`. -/
theorem claim_C5_witness :
    (∀ c ∈ [65], c ∈ dnaSyms) ∧ (∀ c ∈ [67], c ∈ dnaSyms)
    ∧ (∃ a ∈ [67], (([65] : List Nat) ++ [36]).count a = 0)
    ∧ ((FMIndex.mk (bwtOf ([65] ++ [36]))).backward_search_checked [67]
        = some ((FMIndex.mk (bwtOf ([65] ++ [36]))).backward_search [67])
      ∧ ((FMIndex.mk (bwtOf ([65] ++ [36]))).backward_search [67]).2
          < ((FMIndex.mk (bwtOf ([65] ++ [36]))).backward_search [67]).1) :=
  ⟨by decide, by decide, by decide,
    claim_C5_absent_symbol_safe [65] [67] (by decide) (by decide) (by decide)⟩

/-- C6: `FMDIndex` construction fails exactly when the transformed text
contains a symbol outside `$ACGTN`, and otherwise yields the index over that
transform — the alphabet check is the only construction-time failure. -/
theorem claim_C6_construction_validation (bwt : List Nat) :
    (FMDIndex.new bwt = none ↔ ∃ c ∈ bwt, ¬ c ∈ fmdAlphabet)
    ∧ (FMDIndex.new bwt = some ⟨⟨bwt⟩⟩ ↔ ∀ c ∈ bwt, c ∈ fmdAlphabet) := by
  by_cases h : bwt.all (fun c => decide (c ∈ fmdAlphabet))
  · have hall := List.all_eq_true.mp h
    constructor
    · constructor
      · intro hn
        rw [FMDIndex.new, if_pos h] at hn
        cases hn
      · rintro ⟨c, hc, hcn⟩
        exact absurd (of_decide_eq_true (hall c hc)) hcn
    · constructor
      · intro _ c hc
        exact of_decide_eq_true (hall c hc)
      · intro _
        rw [FMDIndex.new, if_pos h]
  · have hex : ∃ c ∈ bwt, ¬ c ∈ fmdAlphabet := by
      rcases List.all_eq_true.not.mp h with hne
      push_neg at hne
      rcases hne with ⟨c, hc, hcn⟩
      exact ⟨c, hc, fun hmem => hcn (decide_eq_true hmem)⟩
    constructor
    · constructor
      · intro _
        exact hex
      · intro _
        rw [FMDIndex.new, if_neg h]
    · constructor
      · intro hsome
        rw [FMDIndex.new, if_neg h] at hsome
        cases hsome
      · intro hall
        exfalso
        rcases hex with ⟨c, hc, hcn⟩
        exact hcn (hall c hc)

/-- C7 counterexample: `backward_search` on scenario A returns `(19, 21)`,
but reading it as the half-open range `[19, 21)` (suffix-array positions 19
and 20 only) omits the occurrence at offset 9, which sits at suffix-array
position 21 — so the interval is not the claimed half-open one. -/
theorem claim_C7_counterexample :
    (FMIndex.mk (bwtOf (textA ++ [36]))).backward_search [84, 84, 65] = (19, 21)
    ∧ [84, 84, 65].isPrefixOf ((textA ++ [36]).drop 9) = true
    ∧ ¬ (9 ∈ ((suffixArray (textA ++ [36])).take 21).drop 19) := by decide

/-- C7 (amended): on text `GCCTTAACATTATTACGCCTA$`, `backward_search` with
pattern `TTA` returns `(19, 21)` read as the inclusive interval `[19, 21]`:
the three suffix-array positions 19, 20, 21, whose offsets `{3, 12, 9}` are
exactly the occurrences of `TTA`. -/
theorem claim_C7_scenarioA :
    (FMIndex.mk (bwtOf (textA ++ [36]))).backward_search [84, 84, 65] = (19, 21)
    ∧ saSlice (textA ++ [36]) (19, 21) = [3, 12, 9]
    ∧ (∀ s, s < (textA ++ [36]).length →
        (s ∈ saSlice (textA ++ [36]) (19, 21)
          ↔ [84, 84, 65].isPrefixOf ((textA ++ [36]).drop s) = true)) := by decide

/-- C8: mirroring is an involution — a double mirror restores all four
fields, and a single mirror keeps `size` and `match_size` while exchanging
`lower` and `lower_rev`. -/
theorem claim_C8_swapped_involution (i : BiInterval) :
    i.swapped.swapped = i
    ∧ i.swapped.size = i.size ∧ i.swapped.match_size = i.match_size
    ∧ i.swapped.lower = i.lower_rev ∧ i.swapped.lower_rev = i.lower :=
  ⟨rfl, rfl, rfl, rfl, rfl⟩

/-- C9: `backward_ext` has the unstated precondition `lower ≥ 1`: with
`lower ≥ 1` (and the interval inside the text) every rank-query position is
in range and the checked extension agrees with `backward_ext`; with
`lower = 0` — even for a non-empty interval — the very first rank query
computes `lower - 1` on a `usize` and underflows, so no interval is
produced. -/
theorem claim_C9_backward_ext_lower_precondition :
    (∀ (idx : FMDIndex) (i : BiInterval) (a : Nat),
        1 ≤ i.lower → i.lower + i.size ≤ idx.fmindex.bwt.length →
        idx.backward_ext_checked i a = some (idx.backward_ext i a))
    ∧ (∀ (idx : FMDIndex) (i : BiInterval) (a : Nat),
        i.lower = 0 → idx.backward_ext_checked i a = none) :=
  ⟨fun idx i a h1 h2 => backward_ext_checked_ok idx i h1 h2 a,
   fun idx i a h => backward_ext_checked_underflow idx i h a⟩

/-- Witness for C9: a concrete in-range interval succeeds, and a concrete
non-empty interval with `lower = 0` fails. -/
theorem claim_C9_witness :
    (1 ≤ (⟨2, 2, 1, 1⟩ : BiInterval).lower)
    ∧ ((⟨2, 2, 1, 1⟩ : BiInterval).lower + (⟨2, 2, 1, 1⟩ : BiInterval).size
        ≤ (FMDIndex.mk ⟨bwtOf textC⟩).fmindex.bwt.length)
    ∧ (FMDIndex.mk ⟨bwtOf textC⟩).backward_ext_checked ⟨2, 2, 1, 1⟩ 84
        = some ((FMDIndex.mk ⟨bwtOf textC⟩).backward_ext ⟨2, 2, 1, 1⟩ 84)
    ∧ ((⟨0, 0, 1, 0⟩ : BiInterval).lower = 0 ∧ (⟨0, 0, 1, 0⟩ : BiInterval).size ≠ 0)
    ∧ (FMDIndex.mk ⟨bwtOf textC⟩).backward_ext_checked ⟨0, 0, 1, 0⟩ 84 = none :=
  ⟨by decide, by decide,
   claim_C9_backward_ext_lower_precondition.1 (FMDIndex.mk ⟨bwtOf textC⟩)
     ⟨2, 2, 1, 1⟩ 84 (by decide) (by decide),
   ⟨rfl, by decide⟩,
   claim_C9_backward_ext_lower_precondition.2 (FMDIndex.mk ⟨bwtOf textC⟩)
     ⟨0, 0, 1, 0⟩ 84 rfl⟩

/-- C10 counterexample: the transform `A` passes construction, and the
pattern consisting of the sentinel has a valid pivot whose symbol does not
occur in the transform — inside the claim's domain.  But `less($) = 0`, so
the seed has `lower = 0` and the backward sweep's first rank query computes
`lower - 1` on a `usize`: the checked run aborts instead of returning the
claimed one-element vector. -/
theorem claim_C10_counterexample :
    FMDIndex.new [65] = some (FMDIndex.mk ⟨[65]⟩)
    ∧ (0 : Nat) < ([36] : List Nat).length
    ∧ (FMDIndex.mk ⟨[65]⟩).fmindex.bwt.count (([36] : List Nat).getD 0 0) = 0
    ∧ (FMDIndex.mk ⟨[65]⟩).smems_checked [36] 0 = none := by decide

/-- C10 (amended): over an index whose transform contains the sentinel, for
every pattern and valid pivot whose pivot symbol is a DNA alphabet symbol
(`A`, `C`, `G`, `T` or `N`) that does not occur in the indexed text, `smems`
returns exactly the one-element vector holding the zero-size seed interval
(with `match_size ≥ 1`), rather than an empty vector — and the checked run
agrees (`some` of the same vector), so no rank query of the sweep is out of
range or underflows. -/
theorem claim_C10_smems_absent_pivot (idx : FMDIndex) (pattern : List Nat) (i : Nat)
    (hsent : 36 ∈ idx.fmindex.bwt) (hdna : pattern.getD i 0 ∈ dnaSyms)
    (hi : i < pattern.length)
    (hcnt : idx.fmindex.bwt.count (pattern.getD i 0) = 0) :
    idx.smems_checked pattern i = some (idx.smems pattern i)
    ∧ idx.smems pattern i = [idx.init_interval pattern i]
    ∧ (idx.init_interval pattern i).size = 0
    ∧ 1 ≤ (idx.init_interval pattern i).match_size := by
  obtain ⟨h1, h2, h3⟩ := smems_absent_aux idx pattern i hi hcnt
  have hchk := smems_checked_absent_aux idx pattern i hsent hdna hi hcnt
  refine ⟨?_, h1, h2, by omega⟩
  rw [hchk, h1]

/-- Witness for C10: the scenario index contains the sentinel but no `N`. -/
theorem claim_C10_witness :
    (36 ∈ (FMDIndex.mk ⟨bwtOf textC⟩).fmindex.bwt)
    ∧ (([78] : List Nat).getD 0 0 ∈ dnaSyms)
    ∧ (0 < ([78] : List Nat).length)
    ∧ ((FMDIndex.mk ⟨bwtOf textC⟩).fmindex.bwt.count (([78] : List Nat).getD 0 0) = 0)
    ∧ (FMDIndex.mk ⟨bwtOf textC⟩).smems_checked [78] 0
        = some ((FMDIndex.mk ⟨bwtOf textC⟩).smems [78] 0)
    ∧ (FMDIndex.mk ⟨bwtOf textC⟩).smems [78] 0
        = [(FMDIndex.mk ⟨bwtOf textC⟩).init_interval [78] 0]
    ∧ ((FMDIndex.mk ⟨bwtOf textC⟩).init_interval [78] 0).size = 0 :=
  ⟨by decide, by decide, by decide, by decide,
   (claim_C10_smems_absent_pivot (FMDIndex.mk ⟨bwtOf textC⟩) [78] 0
     (by decide) (by decide) (by decide) (by decide)).1,
   (claim_C10_smems_absent_pivot (FMDIndex.mk ⟨bwtOf textC⟩) [78] 0
     (by decide) (by decide) (by decide) (by decide)).2.1,
   (claim_C10_smems_absent_pivot (FMDIndex.mk ⟨bwtOf textC⟩) [78] 0
     (by decide) (by decide) (by decide) (by decide)).2.2.1⟩
